import Mathlib

/-!
Verification development for the brightsidebudget ledger library.

The Python source is embedded shallowly: exact `Decimal` amounts become
rationals, `date` values become integers (day ordinals), qualified account
names become lists of path segments, and Python dicts become
insertion-ordered association lists. Stateful methods are embedded as
functions threading the journal state explicitly; a method that can raise
returns the raised error together with the state at the moment of raising.
-/

namespace Bsb

/-- Exact decimal amounts (Python `Decimal`) are embedded as rationals. -/
abbrev Amount := ℚ

/-! ## subset_sum (journal.py lines 778-808)

The Python dict `sum_dict : dict[Decimal, list[int]]` mapping an achievable
partial sum to the list of indices producing it is embedded as an
insertion-ordered association list. -/

/-- Association-list embedding of `sum_dict`. -/
abbrev SumDict := List (Amount × List Nat)

/-- Dictionary key lookup (`d[k]`, `k in d`). -/
def dictLookup : SumDict → Amount → Option (List Nat)
  | [], _ => none
  | (k', v) :: rest, k => if k' = k then some v else dictLookup rest k

/-- Inner loop of `subset_sum`: for every key `k` of the snapshot
`list(sum_dict.items())`, insert `k + p ↦ entry ++ [i]` into the current
dict if `k + p` is not already a key. The first list is the remaining
snapshot, the second the current dict. -/
def updateEntries (p : Amount) (i : Nat) : SumDict → SumDict → SumDict
  | [], d => d
  | (k, v) :: snap, d =>
    let d' := if (dictLookup d (k + p)).isSome then d else d ++ [(k + p, v ++ [i])]
    updateEntries p i snap d'

/-- Dict update performed by one iteration of `subset_sum` that neither
returns nor skips: the inner loop over the snapshot of the current items,
then `sum_dict[p] = [i]` if `p` is not a key. -/
def updateDict (d : SumDict) (p : Amount) (i : Nat) : SumDict :=
  let d1 := updateEntries p i d d
  if (dictLookup d1 p).isSome then d1 else d1 ++ [(p, [i])]

/-- Main loop of `subset_sum` over the remaining amounts; `i` is the index
in the original list of the head of the remaining list. -/
def subsetSumGo (target : Amount) : List Amount → Nat → SumDict → List Nat
  | [], _, _ => []
  | p :: rest, i, d =>
    if target - p = 0 then [i]
    else
      match dictLookup d (target - p) with
      | some ls => ls ++ [i]
      | none => subsetSumGo target rest (i + 1) (updateDict d p i)

/-- Embedding of `subset_sum(amounts, target)`: finds a subset of the
amounts that sums to the target; returns the positions of the subset in the
original list, or `[]` if no subset is found. -/
def subset_sum (amounts : List Amount) (target : Amount) : List Nat :=
  subsetSumGo target amounts 0 []

/-- Sum of the amounts found at the given indices (an out-of-range index
reads 0; the invariants below show indices stay in range). -/
def sumAt (amounts : List Amount) (ixs : List Nat) : Amount :=
  (ixs.map (fun j => amounts.getD j 0)).sum

/-- Soundness invariant for one dict entry: the stored index list is
nonempty, strictly increasing, bounded by `n`, and sums to its key. -/
def SoundEntry (amounts : List Amount) (n : Nat) (kv : Amount × List Nat) : Prop :=
  sumAt amounts kv.2 = kv.1 ∧ kv.2 ≠ [] ∧
    kv.2.Chain' (· < ·) ∧ ∀ j ∈ kv.2, j < n

/-- Completeness invariant: the keys of the partial-sum dict cover the sum
of every nonempty sublist of the processed part of the input. -/
def KeysComplete (amounts : List Amount) (i : Nat) (d : SumDict) : Prop :=
  ∀ l : List Amount, l ≠ [] → l.Sublist (amounts.take i) →
    (dictLookup d l.sum).isSome

/-! ## Qualified names (account.py, class QName)

A QName is embedded as its list of path segments (`_qlist`). The Python
class compares QNames by their joined string form `_qstr`; for the valid
QNames the constructor admits (nonempty segments, no colon inside a
segment) string equality coincides with segment-list equality. -/

/-- Qualified name: the segment list `_qlist` of a QName. -/
abbrev QName := List String

/-- QName.parent (account.py lines 59-65): None at depth 1, else the
segments minus the last. The Python constructor rules out depth 0, so the
embedding also returns none there (the source never sees that case). -/
def qnameParent (q : QName) : Option QName :=
  if q.length ≤ 1 then none else some q.dropLast

/-- QName.is_descendant_of (account.py lines 67-76): strictly more
segments, and the leading segments equal the parent's. -/
def is_descendant_of (self parent : QName) : Bool :=
  if self.length ≤ parent.length then false
  else self.take parent.length == parent

/-- Modelled from the spec: `QName.is_equal_or_descendant_of` is called by
`Journal.balance`, `Journal.failed_bassertions` and
`Journal.adjust_for_bassertions` (journal.py lines 276, 409 and 505) but
its definition is missing from the source tree; the spec (section 4.2 and
4.4) reads it as "equals-or-descends-from" the target. -/
def is_equal_or_descendant_of (self parent : QName) : Bool :=
  self == parent || is_descendant_of self parent

/-! ## Association lists embedding Python dicts

Python dicts are insertion-ordered; assignment to an existing key replaces
the value in place, assignment to a fresh key appends. -/

/-- Dict lookup (`d[k]` / `k in d`). -/
def alistLookup {α β : Type} [DecidableEq α] : List (α × β) → α → Option β
  | [], _ => none
  | (k', v) :: rest, k => if k' = k then some v else alistLookup rest k

/-- Dict assignment `d[k] = v`: replace in place or append. -/
def alistInsert {α β : Type} [DecidableEq α] (d : List (α × β)) (k : α) (v : β) :
    List (α × β) :=
  match d with
  | [] => [(k, v)]
  | (k', v') :: rest => if k' = k then (k, v) :: rest else (k', v') :: alistInsert rest k v

/-- Dict deletion `d.pop(k)` of a present key. -/
def alistRemove {α β : Type} [DecidableEq α] (d : List (α × β)) (k : α) :
    List (α × β) :=
  match d with
  | [] => []
  | (k', v') :: rest => if k' = k then rest else (k', v') :: alistRemove rest k

/-! ## Accounts and the chart of accounts (account.py) -/

/-- Account (account.py lines 123-141): a QName with tags. -/
structure Account where
  qname : QName
  tags : List (String × String) := []
deriving DecidableEq, Repr

/-- ChartOfAccounts state (account.py lines 184-192): the full-name dict
and the short-name dict. -/
structure Chart where
  full_qname_dict : List (QName × Account) := []
  short_qname_dict : List (QName × List Account) := []
deriving DecidableEq, Repr

/-- Account-resolution failures raised by `ChartOfAccounts.account`. -/
inductive LookupErr : Type where
  | ambiguous : LookupErr
  | unknown : LookupErr
deriving DecidableEq, Repr

/-- ChartOfAccounts.account (account.py lines 201-226): an exact full-name
match wins outright; otherwise a short name resolves iff exactly one
account carries it; otherwise ambiguous (key present) or unknown. -/
def Chart.account (c : Chart) (q : QName) : Except LookupErr Account :=
  match alistLookup c.full_qname_dict q with
  | some a => .ok a
  | none =>
    match alistLookup c.short_qname_dict q with
    | some ls =>
      match ls with
      | [a] => .ok a
      | _ => .error .ambiguous
    | none => .error .unknown

/-- Short-name registration loop of add_accounts (account.py lines
292-297): for `idx in range(1, len(qlist))` append the account to the
bucket of the suffix of length `idx`. -/
def registerShort (a : Account) (short : List (QName × List Account)) :
    List (QName × List Account) :=
  (List.range' 1 (a.qname.length - 1)).foldl
    (fun sh idx =>
      alistInsert sh (a.qname.drop (a.qname.length - idx))
        ((alistLookup sh (a.qname.drop (a.qname.length - idx))).getD [] ++ [a]))
    short

/-- ChartOfAccounts.add_accounts for a single account (account.py lines
283-297): duplicate and missing-parent checks, then registration in both
dicts. -/
def Chart.addAccount (c : Chart) (a : Account) : Except String Chart :=
  if (alistLookup c.full_qname_dict a.qname).isSome then
    .error "Account already exists"
  else
    match qnameParent a.qname with
    | some par =>
      if (alistLookup c.full_qname_dict par).isSome then
        .ok ⟨alistInsert c.full_qname_dict a.qname a, registerShort a c.short_qname_dict⟩
      else .error "Parent account does not exist"
    | none =>
      .ok ⟨alistInsert c.full_qname_dict a.qname a, registerShort a c.short_qname_dict⟩

/-- ChartOfAccounts.add_accounts over a list, stopping at the first
failing account. -/
def Chart.addAccounts (c : Chart) (accs : List Account) : Except String Chart :=
  match accs with
  | [] => .ok c
  | a :: rest =>
    match c.addAccount a with
    | .error e => .error e
    | .ok c' => c'.addAccounts rest

/-- Accounts registered in a chart, in insertion order (the values of the
full-name dict). -/
def Chart.accountsOf (c : Chart) : List Account :=
  c.full_qname_dict.map (·.2)

/-- Strict suffix test: `s` is one of the keys `qlist[-idx:]`,
`1 ≤ idx < len(qlist)`, registered for an account named `q`. -/
def isStrictSuffix (s q : QName) : Bool :=
  decide (0 < s.length) && decide (s.length < q.length) &&
    (q.drop (q.length - s.length) == s)

/-- Invariants of a chart built through add_accounts: full-name entries are
keyed by their account's name, and each short-name bucket holds exactly the
registered accounts (in insertion order) having that key as a strict
suffix, and is never an empty list. -/
def ChartInv (c : Chart) : Prop :=
  (∀ q a, alistLookup c.full_qname_dict q = some a → a.qname = q) ∧
  (∀ q, (alistLookup c.short_qname_dict q).getD [] =
      c.accountsOf.filter (fun a => isStrictSuffix q a.qname)) ∧
  (∀ q ls, alistLookup c.short_qname_dict q = some ls → ls ≠ [])

/-- Accounts of a chart carrying the query as a strict suffix of their
full name (the contents of the short-name bucket for that query). -/
def suffixMatches (c : Chart) (q : QName) : List Account :=
  c.accountsOf.filter (fun a => isStrictSuffix q a.qname)

/-- Demonstration chart: `Foo:Checking` is both a registered full name and
a suffix of `Assets:Foo:Checking` (the docstring example of
ChartOfAccounts.account). -/
def demoAccs : List Account :=
  [⟨["Assets"], []⟩, ⟨["Assets", "Foo"], []⟩, ⟨["Assets", "Foo", "Checking"], []⟩,
    ⟨["Foo"], []⟩, ⟨["Foo", "Checking"], []⟩]

def demoChart : Chart :=
  match Chart.addAccounts ⟨[], []⟩ demoAccs with
  | .ok c => c
  | .error _ => ⟨[], []⟩

/-! ## Shortest unique name (account.py ChartOfAccounts.short_qname,
lines 242-259) -/

/-- Suffix-trying loop of short_qname: `for i in range(min_length,
len(qlist))`, skipping suffixes that are registered full names, returning
the first suffix whose short-name bucket has exactly one member; falls
back to the full name. A missing short-name key would be a KeyError in the
source, embedded as `none`. -/
def shortQnameLoop (c : Chart) (ql : QName) (i : Nat) : Option QName :=
  if _h : i < ql.length then
    if (alistLookup c.full_qname_dict (ql.drop (ql.length - i))).isSome then
      shortQnameLoop c ql (i + 1)
    else
      match alistLookup c.short_qname_dict (ql.drop (ql.length - i)) with
      | none => none
      | some ls => if ls.length = 1 then some (ql.drop (ql.length - i)) else
          shortQnameLoop c ql (i + 1)
  else some ql
termination_by ql.length - i

/-- ChartOfAccounts.short_qname: resolve the argument, clamp the minimum
length into `[1, len]`, then try suffixes of increasing length. -/
def Chart.short_qname (c : Chart) (minLen : QName → Nat) (q : QName) :
    Except LookupErr (Option QName) :=
  match c.account q with
  | .error e => .error e
  | .ok acc =>
    .ok (shortQnameLoop c acc.qname (min (max (minLen acc.qname) 1) acc.qname.length))

/-! ## Postings and transactions (txn.py / posting.py) -/

/-- Posting (txn.py lines 10-36): dates are embedded as integers (day
ordinals); the constructor defaults `stmt_date` to `date`. -/
structure Posting where
  txnid : Int
  date : Int
  acc_qname : QName
  amount : Amount
  comment : Option String := none
  stmt_desc : Option String := none
  stmt_date : Int
  tags : List (String × String) := []
deriving DecidableEq, Repr

/-- Txn (txn.py lines 39-79): a list of postings; the validity checks live
in `mkTxn` below, mirroring the constructor. -/
structure Txn where
  postings : List Posting
deriving DecidableEq, Repr

/-- Txn.txnid: the first posting's id (only queried on nonempty lists in
the source, whose constructor guarantees at least two postings). -/
def Txn.txnid (t : Txn) : Int :=
  match t.postings with
  | [] => 0
  | p :: _ => p.txnid

/-- Txn.date: the first posting's date. -/
def Txn.date (t : Txn) : Int :=
  match t.postings with
  | [] => 0
  | p :: _ => p.date

/-- Txn.is_1_n (posting.py lines 96-101): false iff strictly more than one
positive and strictly more than one negative posting. -/
def Txn.is_1_n (t : Txn) : Bool :=
  !(1 < (t.postings.filter (fun p => 0 < p.amount)).length &&
    1 < (t.postings.filter (fun p => p.amount < 0)).length)

/-- Txn.__init__ validation (txn.py lines 44-57): raises on an empty
posting list, a non-unique txnid (`len(set(...)) != 1`, embedded as the
toFinset cardinality), fewer than two postings, heterogeneous dates, and a
nonzero amount sum; otherwise the transaction is constructed. -/
def mkTxn (postings : List Posting) : Except String Txn :=
  if postings = [] then .error "Empty list of postings"
  else if (postings.map (·.txnid)).toFinset.card ≠ 1 then
    .error "Txn postings must have a unique txnid"
  else if postings.length < 2 then .error "Txn must have at least two Posting"
  else if (postings.map (·.date)).toFinset.card ≠ 1 then
    .error "Txn must have the same date"
  else if (postings.map (·.amount)).sum ≠ 0 then .error "Txn balance is not zero"
  else .ok ⟨postings⟩

/-! ## Balance assertions and budget targets -/

/-- BAssertion (bassertion.py lines 10-30). -/
structure BAssertion where
  date : Int
  acc_qname : QName
  balance : Amount
  tags : List (String × String) := []
deriving DecidableEq, Repr

/-- RPosting (posting.py lines 143-253). The occurrence dates of the
recurrence rule are kept abstract: `occs start end` is the list of dates
the rule produces inside the inclusive window. Modelled from the spec:
the rule itself is computed by the external dateutil `rrule` library
(section 3, RecurringPosting "generates a lazy, finite, restartable
sequence of dated occurrences"). -/
structure RPosting where
  start : Int
  acc_qname : QName
  amount : Amount
  comment : Option String := none
  tags : List (String × String) := []
  occs : Int → Int → List Int

/-- Inner loop of RPosting.postings_between: one posting per occurrence,
with consecutive transaction ids. -/
def postingsBetweenGo (t : RPosting) : List Int → Int → List Posting
  | [], _ => []
  | d :: ds, id =>
    { txnid := id, date := d, acc_qname := t.acc_qname, amount := t.amount,
      comment := t.comment, stmt_desc := none, stmt_date := d,
      tags := t.tags } :: postingsBetweenGo t ds (id + 1)

/-- RPosting.postings_between (posting.py lines 217-229). -/
def RPosting.postings_between (t : RPosting) (sd ed : Int) (txnid : Int) : List Posting :=
  postingsBetweenGo t (t.occs sd ed) txnid

/-! ## Journal (journal.py)

Mutating methods are embedded as functions returning the new journal
together with the raised error, if any; the journal component is the state
at the moment of the raise. -/

/-- Journal state (journal.py lines 20-40). -/
structure Journal where
  enforce_1_n : Bool := false
  auto_create_parents : Bool := false
  accounts : List Account := []
  postings : List Posting := []
  targets : List RPosting := []
  bassertions : List BAssertion := []
  bassertions_set : List (Int × QName) := []
  txns_dict : List (Int × Txn) := []
  full_qname_dict : List (QName × Account) := []
  short_qname_dict : List (QName × List Account) := []
  next_txn_id : Int := 1

/-- Journal.account (journal.py lines 53-78): same resolution as
ChartOfAccounts.account. -/
def Journal.account (j : Journal) (q : QName) : Except LookupErr Account :=
  match alistLookup j.full_qname_dict q with
  | some a => .ok a
  | none =>
    match alistLookup j.short_qname_dict q with
    | some ls =>
      match ls with
      | [a] => .ok a
      | _ => .error .ambiguous
    | none => .error .unknown

/-- Journal.is_valid_qname (journal.py lines 80-92). -/
def Journal.is_valid_qname (j : Journal) (q : QName) : Bool :=
  match alistLookup j.full_qname_dict q with
  | some _ => true
  | none =>
    match alistLookup j.short_qname_dict q with
    | some ls => ls.length == 1
    | none => false

/-- Journal.full_qname (journal.py lines 116-120). -/
def Journal.full_qname (j : Journal) (q : QName) : Except LookupErr QName :=
  match j.account q with
  | .error e => .error e
  | .ok a => .ok a.qname

/-- Journal.is_leaf_account (journal.py lines 122-130): no registered
account is a strict descendant. -/
def Journal.is_leaf_account (j : Journal) (q : QName) : Except LookupErr Bool :=
  match j.full_qname q with
  | .error e => .error e
  | .ok fq => .ok (j.accounts.all (fun a => !(is_descendant_of a.qname fq)))

/-- Registration step shared by the add_accounts branches (journal.py
lines 152-159). -/
def Journal.commitAccount (j : Journal) (a : Account) : Journal :=
  { j with
    full_qname_dict := alistInsert j.full_qname_dict a.qname a,
    accounts := j.accounts ++ [a],
    short_qname_dict := registerShort a j.short_qname_dict }

/-- Journal.add_accounts for one account (journal.py lines 141-159),
including the auto-create-parents recursion. -/
def Journal.addOneAccount (j : Journal) (a : Account) : Journal × Option String :=
  if (alistLookup j.full_qname_dict a.qname).isSome then
    (j, some "Account already exists")
  else
    match hpar : qnameParent a.qname with
    | some par =>
      if (alistLookup j.full_qname_dict par).isSome then (j.commitAccount a, none)
      else if j.auto_create_parents then
        match j.addOneAccount ⟨par, []⟩ with
        | (j', some e) => (j', some e)
        | (j', none) => (j'.commitAccount a, none)
      else (j, some "Parent account does not exist")
    | none => (j.commitAccount a, none)
termination_by a.qname.length
decreasing_by
  simp only [qnameParent] at hpar
  split at hpar
  · simp at hpar
  · simp only [Option.some.injEq] at hpar
    subst hpar
    simp only [List.length_dropLast]
    omega

/-- Journal.add_accounts over a list; a failure mid-list keeps the
accounts already registered (the Python loop mutates as it goes). -/
def Journal.add_accounts (j : Journal) : List Account → Journal × Option String
  | [] => (j, none)
  | a :: rest =>
    match j.addOneAccount a with
    | (j', some e) => (j', some e)
    | (j', none) => j'.add_accounts rest

/-- Per-posting validation and rewriting step of add_txns (journal.py
lines 183-197): id assignment or collision check, account resolution
check, rewrite to the full name, leaf check. -/
def rewritePosting (j : Journal) (ignore : Bool) (id : Int) (p : Posting) :
    Except String Posting :=
  let p1 := if ignore then { p with txnid := id } else p
  if !ignore && (alistLookup j.txns_dict p1.txnid).isSome then
    .error "Transaction already exists"
  else if !(j.is_valid_qname p1.acc_qname) then
    .error "Account does not exist or is ambiguous"
  else
    match j.full_qname p1.acc_qname with
    | .error _ => .error "Account does not exist or is ambiguous"
    | .ok fq =>
      match j.is_leaf_account fq with
      | .error _ => .error "Account does not exist or is ambiguous"
      | .ok leaf =>
        if leaf then .ok { p1 with acc_qname := fq }
        else .error "Account is not a leaf account"

def rewritePostings (j : Journal) (ignore : Bool) (id : Int) :
    List Posting → Except String (List Posting)
  | [] => .ok []
  | p :: rest =>
    match rewritePosting j ignore id p with
    | .error e => .error e
    | .ok p' =>
      match rewritePostings j ignore id rest with
      | .error e => .error e
      | .ok ps' => .ok (p' :: ps')

/-- Validation of one transaction of an add_txns batch (journal.py lines
178-197): the 1-n shape check, then every posting. -/
def validateTxn (j : Journal) (ignore : Bool) (id : Int) (t : Txn) :
    Except String Txn :=
  if j.enforce_1_n && !t.is_1_n then
    .error "Txn must have only one positive or one negative posting"
  else
    match rewritePostings j ignore id t.postings with
    | .error e => .error e
    | .ok ps => .ok ⟨ps⟩

def validateTxns (j : Journal) (ignore : Bool) :
    Int → List Txn → Except String (List Txn)
  | _, [] => .ok []
  | id, t :: ts =>
    match validateTxn j ignore id t with
    | .error e => .error e
    | .ok t' =>
      match validateTxns j ignore (id + 1) ts with
      | .error e => .error e
      | .ok ts' => .ok (t' :: ts')

/-- Python `max(xs, default=d)`. -/
def listMaxD (xs : List Int) (d : Int) : Int :=
  match xs with
  | [] => d
  | x :: rest => rest.foldl max x

/-- Journal.add_txns (journal.py lines 161-209): the whole batch is
validated (and its postings rewritten) before any commit; the commit loop
stores each transaction and extends the posting list, then the
next-transaction-id counter is advanced. -/
def Journal.add_txns (j : Journal) (txns : List Txn) (ignore : Bool) :
    Journal × Option String :=
  match validateTxns j ignore j.next_txn_id txns with
  | .error e => (j, some e)
  | .ok ts =>
    let j1 := ts.foldl
      (fun jj t =>
        { jj with
          txns_dict := alistInsert jj.txns_dict t.txnid t,
          postings := jj.postings ++ t.postings })
      j
    if ignore then
      ({ j1 with next_txn_id := j.next_txn_id + txns.length }, none)
    else
      ({ j1 with
        next_txn_id := max (listMaxD (ts.map Txn.txnid) 0 + 1) j.next_txn_id }, none)

/-- Journal.add_bassertions (journal.py lines 211-237): the validation
loop resolves each account, rewrites it to the full name and grows the
dedup set as it checks for duplicates; the assertions themselves are
appended only after the whole batch validated. -/
def Journal.addBAssertionsGo (j : Journal) :
    List BAssertion → List BAssertion → Journal × Option String
  | [], acc => ({ j with bassertions := j.bassertions ++ acc }, none)
  | b :: rest, acc =>
    if !(j.is_valid_qname b.acc_qname) then
      (j, some "Account does not exist or is ambiguous")
    else
      match j.full_qname b.acc_qname with
      | .error _ => (j, some "Account does not exist or is ambiguous")
      | .ok fq =>
        if (b.date, fq) ∈ j.bassertions_set then
          (j, some "BAssertion already exists")
        else
          Journal.addBAssertionsGo
            { j with bassertions_set := j.bassertions_set ++ [(b.date, fq)] }
            rest (acc ++ [{ b with acc_qname := fq }])

def Journal.add_bassertions (j : Journal) (bs : List BAssertion) :
    Journal × Option String :=
  j.addBAssertionsGo bs []

/-- Validation loop of add_targets (journal.py lines 248-255). -/
def validateTargets (j : Journal) : List RPosting → Except String (List RPosting)
  | [] => .ok []
  | t :: rest =>
    if !(j.is_valid_qname t.acc_qname) then
      .error "Account does not exist or is ambiguous"
    else
      match j.is_leaf_account t.acc_qname with
      | .error _ => .error "Account does not exist or is ambiguous"
      | .ok leaf =>
        if !leaf then .error "Account is not a leaf account"
        else
          match j.full_qname t.acc_qname with
          | .error _ => .error "Account does not exist or is ambiguous"
          | .ok fq =>
            match validateTargets j rest with
            | .error e => .error e
            | .ok ts => .ok ({ t with acc_qname := fq } :: ts)

/-- Journal.add_targets (journal.py lines 239-258). -/
def Journal.add_targets (j : Journal) (ts : List RPosting) : Journal × Option String :=
  match validateTargets j ts with
  | .error e => (j, some e)
  | .ok ts' => ({ j with targets := j.targets ++ ts' }, none)

/-- Posting date selector used by balance and find_subset. -/
def getDateP (useStmt : Bool) (p : Posting) : Int :=
  if useStmt then p.stmt_date else p.date

/-- Journal.balance (journal.py lines 260-279): running sum over every
posting at or before the date whose account equals or descends from the
resolved target. -/
def Journal.balance (j : Journal) (dt : Int) (q : QName) (useStmt : Bool) :
    Except LookupErr Amount :=
  match j.full_qname q with
  | .error e => .error e
  | .ok fq =>
    .ok (j.postings.foldl
      (fun acc p =>
        if getDateP useStmt p ≤ dt ∧ is_equal_or_descendant_of p.acc_qname fq then
          acc + p.amount
        else acc)
      0)

/-- Journal.account_bassertions (journal.py lines 425-435): the
assertions on the resolved account, sorted by date (Python's stable
sort). -/
def Journal.account_bassertions (j : Journal) (q : QName) :
    Except LookupErr (List BAssertion) :=
  match j.full_qname q with
  | .error e => .error e
  | .ok fq =>
    .ok ((j.bassertions.filter (fun b => b.acc_qname == fq)).mergeSort
      (fun b1 b2 => b1.date ≤ b2.date))

/-- Fallback posting for list indexing (ps[i] in Python; the subset-sum
index bounds make it unreachable). -/
def dummyPosting : Posting :=
  { txnid := 0, date := 0, acc_qname := [], amount := 0, stmt_date := 0 }

/-- Journal.find_subset (journal.py lines 437-471): filter the resolved
account's postings to the window, sort by date descending (stable), run
subset_sum on the amounts and return the selected postings. -/
def Journal.find_subset (j : Journal) (amnt : Amount) (q : QName)
    (sd ed : Int) (useStmt : Bool) : Except LookupErr (Option (List Posting)) :=
  match j.full_qname q with
  | .error e => .error e
  | .ok fq =>
    let ps := (j.postings.filter
      (fun p => p.acc_qname == fq && decide (getDateP useStmt p ≤ ed) &&
        decide (sd ≤ getDateP useStmt p))).mergeSort
      (fun p1 p2 => getDateP useStmt p2 ≤ getDateP useStmt p1)
    let subset := subset_sum (ps.map (·.amount)) amnt
    if subset = [] then .ok none
    else .ok (some (subset.map (fun i => ps.getD i dummyPosting)))

/-- Inner loop of adjust_for_bassertions (journal.py lines 510-523): one
adjustment transaction per failing assertion, committed immediately
through add_txns with ignore_txnid=False. -/
def adjustInner (child counterpart : QName) (force : Bool)
    (comment : Option String) :
    Journal → List BAssertion → List Txn → (Except String (List Txn)) × Journal
  | j, [], acc => (.ok acc, j)
  | j, b :: bs, acc =>
    match j.balance b.date b.acc_qname true with
    | .error _ => (.error "Account does not exist or is ambiguous", j)
    | .ok actual =>
      if b.balance - actual = 0 ∧ ¬force then
        adjustInner child counterpart force comment j bs acc
      else
        match mkTxn
          [{ txnid := j.next_txn_id, date := b.date, acc_qname := child,
              amount := b.balance - actual, comment := comment, stmt_date := b.date },
            { txnid := j.next_txn_id, date := b.date, acc_qname := counterpart,
              amount := -(b.balance - actual), comment := comment,
              stmt_date := b.date }] with
        | .error e => (.error e, j)
        | .ok t =>
          match j.add_txns [t] false with
          | (j', some e) => (.error e, j')
          | (j', none) => adjustInner child counterpart force comment j' bs (acc ++ [t])

/-- Child-account resolution of one adjust_for_bassertions triple
(journal.py lines 501-507). -/
def resolveChild (j : Journal) (acc_qname : QName) (child : Option QName) :
    Except String QName :=
  match child with
  | none => .ok acc_qname
  | some cq =>
    match j.full_qname cq with
    | .error _ => .error "Account does not exist or is ambiguous"
    | .ok c' =>
      if is_equal_or_descendant_of c' acc_qname then .ok c'
      else .error "Child account must be a descendant"

/-- Outer loop of adjust_for_bassertions (journal.py lines 497-524) over
the (account, counterpart, child) triples. -/
def adjustOuter (force : Bool) (comment : Option String) :
    Journal → List (QName × QName × Option QName) → List Txn →
      (Except String (List Txn)) × Journal
  | j, [], acc => (.ok acc, j)
  | j, (a, cp, child) :: rest, acc =>
    match j.full_qname a with
    | .error _ => (.error "Account does not exist or is ambiguous", j)
    | .ok acc_qname =>
      match j.full_qname cp with
      | .error _ => (.error "Account does not exist or is ambiguous", j)
      | .ok counterpart =>
        match resolveChild j acc_qname child with
        | .error e => (.error e, j)
        | .ok child' =>
          match j.account_bassertions acc_qname with
          | .error _ => (.error "Account does not exist or is ambiguous", j)
          | .ok bs =>
            match adjustInner child' counterpart force comment j bs acc with
            | (.error e, j') => (.error e, j')
            | (.ok acc', j') => adjustOuter force comment j' rest acc'

/-- Journal.adjust_for_bassertions (journal.py lines 473-524). -/
def Journal.adjust_for_bassertions (j : Journal)
    (accounts counterparts : List QName) (children : List (Option QName))
    (force : Bool) (comment : Option String) :
    (Except String (List Txn)) × Journal :=
  if accounts.length ≠ counterparts.length ∨ accounts.length ≠ children.length then
    (.error "All lists must have the same length", j)
  else adjustOuter force comment j (accounts.zip (counterparts.zip children)) []

/-- One budget target's counterpart transactions (journal.py lines
303-311). -/
def budgetPairs (cp : QName) : List Posting → Except String (List Txn)
  | [] => .ok []
  | p :: rest =>
    let p2 : Posting :=
      { txnid := p.txnid, date := p.date, acc_qname := cp,
        amount := -p.amount, comment := p.comment, stmt_desc := p.stmt_desc,
        stmt_date := p.stmt_date, tags := p.tags }
    match mkTxn [p, p2] with
    | .error e => .error e
    | .ok t =>
      match budgetPairs cp rest with
      | .error e => .error e
      | .ok ts => .ok (t :: ts)

def budgetGo (sd ed : Int) (cp : QName) :
    List RPosting → Int → Except String (List Txn × Int)
  | [], id => .ok ([], id)
  | t :: ts, id =>
    let xs := t.postings_between sd ed id
    match budgetPairs cp xs with
    | .error e => .error e
    | .ok pairs =>
      match budgetGo sd ed cp ts (id + xs.length) with
      | .error e => .error e
      | .ok (rest, idF) => .ok (pairs ++ rest, idF)

/-- Journal.budget_txns (journal.py lines 292-314): generates counterpart
transactions for every target occurrence in the window, bumps the
next-transaction-id counter, but stores nothing. -/
def Journal.budget_txns (j : Journal) (sd ed : Int) (cp : QName) :
    (Except String (List Txn)) × Journal :=
  match budgetGo sd ed cp j.targets j.next_txn_id with
  | .error e => (.error e, j)
  | .ok (txns, idF) => (.ok txns, { j with next_txn_id := idF })

/-! ## Bank import (bank_import.py import_bank_csv, lines 107-163) -/

/-- Deduplication key of a posting: `(date, amount, stmt_desc)`
(bank_import.py lines 135 and 145). -/
def Posting.dedupKeyOf (p : Posting) : Int × Amount × Option String :=
  (p.date, p.amount, p.stmt_desc)

/-- Count-map increment (bank_import.py lines 133-138). -/
def countInc (d : List ((Int × Amount × Option String) × Int))
    (k : Int × Amount × Option String) :
    List ((Int × Amount × Option String) × Int) :=
  alistInsert d k ((alistLookup d k).getD 0 + 1)

/-- Deduplication dictionary over the ledger's postings for the account
(bank_import.py lines 133-138). -/
def buildDedup (ps : List Posting) : List ((Int × Amount × Option String) × Int) :=
  ps.foldl (fun d p => countInc d p.dedupKeyOf) []

/-- Date-based skip of the duplicate filter (bank_import.py line 143:
`only_after and p.date <= only_after`). -/
def skipCond (onlyAfter : Option Int) (p : Posting) : Bool :=
  match onlyAfter with
  | some oa => decide (p.date ≤ oa)
  | none => false

/-- The same date cut as a function of the date alone. -/
def skipD (onlyAfter : Option Int) (dt : Int) : Bool :=
  match onlyAfter with
  | some oa => decide (dt ≤ oa)
  | none => false

/-- Duplicate filter (bank_import.py lines 140-151): skip candidates at or
before only_after; a candidate whose key is in the count map is dropped
and the count decremented (the key removed at zero); the rest are new. -/
def filterNew (onlyAfter : Option Int) :
    List Posting → List ((Int × Amount × Option String) × Int) → List Posting
  | [], _ => []
  | p :: rest, d =>
    if skipCond onlyAfter p then
      filterNew onlyAfter rest d
    else
      match alistLookup d p.dedupKeyOf with
      | some c =>
        filterNew onlyAfter rest
          (if c - 1 = 0 then alistRemove d p.dedupKeyOf
            else alistInsert d p.dedupKeyOf (c - 1))
      | none => p :: filterNew onlyAfter rest d

/-- The CSV adapter stamps the configured account and consecutive ids
starting at the journal's next id onto the parsed rows (bank_import.py
lines 100-103 and 125). -/
def stampPostings (fq : QName) : Int → List Posting → List Posting
  | _, [] => []
  | id, c :: cs => { c with acc_qname := fq, txnid := id } :: stampPostings fq (id + 1) cs

/-- The new (non-duplicate) candidate postings of an import run
(bank_import.py lines 125-151). -/
def bankNewPs (j : Journal) (fq : QName) (candidates : List Posting)
    (onlyAfter : Option Int) : List Posting :=
  filterNew onlyAfter (stampPostings fq j.next_txn_id candidates)
    (buildDedup (j.postings.filter
      (fun p => p.acc_qname == fq || is_descendant_of p.acc_qname fq)))

/-- Classification loop (bank_import.py lines 154-160): concatenates the
classifier's transactions for each new posting; an empty answer (`None`)
adds nothing. -/
def classifyAll (classifier : Posting → List Txn) (new_ps : List Posting) : List Txn :=
  new_ps.foldl (fun acc p => match classifier p with | [] => acc | ts => acc ++ ts) []

/-- import_bank_csv (bank_import.py lines 107-163): resolve the configured
account, stamp the candidates, deduplicate against the ledger postings of
that account and its descendants, classify the new postings and commit the
classified transactions. -/
def import_bank_csv (j : Journal) (confQ : QName) (candidates : List Posting)
    (classifier : Posting → List Txn) (onlyAfter : Option Int) :
    (Except String (List Txn)) × Journal :=
  match j.full_qname confQ with
  | .error _ => (.error "Account does not exist or is ambiguous", j)
  | .ok fq =>
    match j.add_txns (classifyAll classifier (bankNewPs j fq candidates onlyAfter)) true with
    | (j', some e) => (.error e, j')
    | (j', none) => (.ok (classifyAll classifier (bankNewPs j fq candidates onlyAfter)), j')

/-- States reachable from an empty journal through the public mutators
(errors included: the journal component of a result is a real state even
when the call raised). -/
inductive Reach : Journal → Prop where
  | empty (e1 ac : Bool) :
      Reach { enforce_1_n := e1, auto_create_parents := ac }
  | add_accounts {j} (accs : List Account) :
      Reach j → Reach (j.add_accounts accs).1
  | add_txns {j} (txns : List Txn) (ignore : Bool) :
      Reach j → Reach (j.add_txns txns ignore).1
  | add_bassertions {j} (bs : List BAssertion) :
      Reach j → Reach (j.add_bassertions bs).1
  | add_targets {j} (ts : List RPosting) :
      Reach j → Reach (j.add_targets ts).1
  | budget_txns {j} (sd ed : Int) (cp : QName) :
      Reach j → Reach (j.budget_txns sd ed cp).2
  | adjust_for_bassertions {j} (accounts counterparts : List QName)
      (children : List (Option QName)) (force : Bool) (comment : Option String) :
      Reach j → Reach (j.adjust_for_bassertions accounts counterparts children
        force comment).2
  | import_bank_csv {j} (confQ : QName) (candidates : List Posting)
      (classifier : Posting → List Txn) (onlyAfter : Option Int) :
      Reach j → Reach (import_bank_csv j confQ candidates classifier onlyAfter).2

/-- Claim C9's invariant: the next-id counter is positive and strictly
above the id of every stored transaction (both the dict key and the
transaction's own id). -/
def NextIdInv (j : Journal) : Prop :=
  1 ≤ j.next_txn_id ∧
    ∀ kv ∈ j.txns_dict, kv.1 < j.next_txn_id ∧ kv.2.txnid < j.next_txn_id

/-- Count read on a count map: absent keys count zero. -/
def lookupCount {α : Type} [DecidableEq α] (d : List (α × Int)) (k : α) : Int :=
  (alistLookup d k).getD 0

/-- Well-formedness of a count map: every stored count is at least one
(the Python dicts only ever hold keys with positive counts). -/
def CountWF {α : Type} [DecidableEq α] (d : List (α × Int)) : Prop :=
  ∀ k c, alistLookup d k = some c → 1 ≤ c

/-- Key distinctness of an association list. -/
def KeysNodup {α β : Type} (d : List (α × β)) : Prop :=
  (d.map (·.1)).Nodup

/-! ## Concrete states used by the witnesses and counterexamples -/

/-- Journal holding the two leaf accounts `Bank` and `Expense`. -/
def c3J : Journal :=
  { accounts := [⟨["Bank"], []⟩, ⟨["Expense"], []⟩],
    full_qname_dict := [(["Bank"], ⟨["Bank"], []⟩), (["Expense"], ⟨["Expense"], []⟩)] }

/-- One bank-CSV candidate row. -/
def c3Cand : Posting :=
  { txnid := 0, date := 1, acc_qname := [], amount := 5, stmt_desc := some "x",
    stmt_date := 1 }

/-- Classifier balancing each new posting against `Expense`, keeping the
posting itself unchanged. -/
def c3Classifier (p : Posting) : List Txn :=
  [⟨[p, { p with acc_qname := ["Expense"], amount := -p.amount }]⟩]

/-- Journal holding the single account `A`. -/
def c4Journal : Journal :=
  { accounts := [⟨["A"], []⟩], full_qname_dict := [(["A"], ⟨["A"], []⟩)] }

/-- Valid balance assertion on `A`. -/
def c4Good : BAssertion := { date := 1, acc_qname := ["A"], balance := 100 }

/-- Balance assertion on an unregistered account. -/
def c4Bad : BAssertion := { date := 1, acc_qname := ["Bad"], balance := 50 }

/-- Transaction on an unregistered account, rejected by add_txns. -/
def c4Txn : Txn :=
  ⟨[{ txnid := 1, date := 0, acc_qname := ["X"], amount := 5, stmt_date := 0 },
    { txnid := 1, date := 0, acc_qname := ["X"], amount := -5, stmt_date := 0 }]⟩

/-- Posting of 100 on `Assets:Checking`. -/
def c5P1 : Posting :=
  { txnid := 1, date := 0, acc_qname := ["Assets", "Checking"], amount := 100,
    stmt_date := 0 }

/-- Counterpart posting of -100 on `Revenue`. -/
def c5P2 : Posting :=
  { txnid := 1, date := 0, acc_qname := ["Revenue"], amount := -100, stmt_date := 0 }

/-- Scenario A journal: `Assets`, `Assets:Checking` and `Revenue`, with a
single balanced transaction putting 100 on `Assets:Checking`. -/
def c5Journal : Journal :=
  { accounts := [⟨["Assets"], []⟩, ⟨["Assets", "Checking"], []⟩, ⟨["Revenue"], []⟩],
    postings := [c5P1, c5P2],
    full_qname_dict :=
      [(["Assets"], ⟨["Assets"], []⟩),
        (["Assets", "Checking"], ⟨["Assets", "Checking"], []⟩),
        (["Revenue"], ⟨["Revenue"], []⟩)],
    short_qname_dict := [(["Checking"], [⟨["Assets", "Checking"], []⟩])],
    txns_dict := [], next_txn_id := 2 }

theorem soundEntry_mono {amounts : List Amount} {m n : Nat} {kv : Amount × List Nat}
    (hmn : m ≤ n) (h : SoundEntry amounts m kv) : SoundEntry amounts n kv := by
  obtain ⟨h1, h2, h3, h4⟩ := h
  exact ⟨h1, h2, h3, fun j hj => lt_of_lt_of_le (h4 j hj) hmn⟩

theorem dictLookup_mem {d : SumDict} {k : Amount} {v : List Nat}
    (h : dictLookup d k = some v) : (k, v) ∈ d := by
  induction d with
  | nil => simp [dictLookup] at h
  | cons kv rest ih =>
    obtain ⟨k', v'⟩ := kv
    by_cases hk : k' = k
    · subst hk
      simp [dictLookup] at h
      subst h
      exact List.mem_cons_self _ _
    · simp [dictLookup, hk] at h
      exact List.mem_cons_of_mem _ (ih h)

theorem sumAt_append (amounts : List Amount) (l1 l2 : List Nat) :
    sumAt amounts (l1 ++ l2) = sumAt amounts l1 + sumAt amounts l2 := by
  simp [sumAt]

theorem chain'_snoc_of_bound {l : List Nat} {i : Nat}
    (hc : l.Chain' (· < ·)) (hb : ∀ j ∈ l, j < i) :
    (l ++ [i]).Chain' (· < ·) := by
  rw [List.chain'_append]
  refine ⟨hc, List.chain'_singleton i, ?_⟩
  intro x hx y hy
  simp at hy
  subst hy
  exact hb x (List.mem_of_mem_getLast? hx)

/-- Entries appended by the inner loop are sound: each comes from a sound
snapshot entry extended with index `i` carrying amount `p`. -/
theorem updateEntries_sound {amounts : List Amount} {p : Amount} {i : Nat}
    (hp : amounts[i]?.getD 0 = p) :
    ∀ (snap d : SumDict),
      (∀ kv ∈ d, SoundEntry amounts (i + 1) kv) →
      (∀ kv ∈ snap, SoundEntry amounts i kv) →
      ∀ kv ∈ updateEntries p i snap d, SoundEntry amounts (i + 1) kv := by
  intro snap
  induction snap with
  | nil => intro d hd _ kv hkv; exact hd kv hkv
  | cons hd_kv snap ih =>
    obtain ⟨k, v⟩ := hd_kv
    intro d hd hsnap kv hkv
    rw [updateEntries] at hkv
    by_cases hmem : (dictLookup d (k + p)).isSome
    · simp only [hmem, if_true] at hkv
      exact ih d hd (fun kv h => hsnap kv (List.mem_cons_of_mem _ h)) kv hkv
    · simp only [hmem, if_false] at hkv
      refine ih _ ?_ (fun kv h => hsnap kv (List.mem_cons_of_mem _ h)) kv hkv
      intro kv' hkv'
      rcases List.mem_append.1 hkv' with h | h
      · exact hd kv' h
      · simp at h
        subst h
        obtain ⟨h1, _h2, h3, h4⟩ := hsnap (k, v) (List.mem_cons_self _ _)
        refine ⟨?_, by simp, chain'_snoc_of_bound h3 h4, ?_⟩
        · simp only [sumAt_append, h1]
          simp [sumAt, hp]
        · intro j hj
          rcases List.mem_append.1 hj with h | h
          · exact Nat.lt_succ_of_lt (h4 j h)
          · simp at h; omega

theorem updateDict_sound {amounts : List Amount} {p : Amount} {i : Nat}
    (hp : amounts[i]?.getD 0 = p) {d : SumDict}
    (hd : ∀ kv ∈ d, SoundEntry amounts i kv) :
    ∀ kv ∈ updateDict d p i, SoundEntry amounts (i + 1) kv := by
  intro kv hkv
  rw [updateDict] at hkv
  have hd1 : ∀ kv ∈ updateEntries p i d d, SoundEntry amounts (i + 1) kv :=
    updateEntries_sound hp d d
      (fun kv h => soundEntry_mono (Nat.le_succ i) (hd kv h)) hd
  by_cases hmem : (dictLookup (updateEntries p i d d) p).isSome
  · simp only [hmem, if_true] at hkv
    exact hd1 kv hkv
  · simp only [hmem, if_false] at hkv
    rcases List.mem_append.1 hkv with h | h
    · exact hd1 kv h
    · simp at h
      subst h
      exact ⟨by simp [sumAt, hp], by simp, List.chain'_singleton i, by simp⟩

theorem getD_of_drop {amounts rest : List Amount} {p : Amount} {i : Nat}
    (h : amounts.drop i = p :: rest) : amounts[i]?.getD 0 = p := by
  have h0 : amounts[i]? = some p := by
    have := List.getElem?_drop amounts i 0
    rw [h] at this
    simpa using this.symm
  simp [h0]

theorem lt_length_of_drop {amounts rest : List Amount} {p : Amount} {i : Nat}
    (h : amounts.drop i = p :: rest) : i < amounts.length := by
  have := congrArg List.length h
  rw [List.length_drop] at this
  simp at this
  omega

theorem drop_succ_of_drop {amounts rest : List Amount} {p : Amount} {i : Nat}
    (h : amounts.drop i = p :: rest) : amounts.drop (i + 1) = rest := by
  rw [← List.tail_drop, h]
  rfl

/-- Main soundness invariant lemma for the subset_sum loop: a nonempty
result sums to the target, is strictly increasing, and stays in range. -/
theorem subsetSumGo_sound (amounts : List Amount) (target : Amount) :
    ∀ (rest : List Amount) (i : Nat) (d : SumDict),
      amounts.drop i = rest →
      (∀ kv ∈ d, SoundEntry amounts i kv) →
      subsetSumGo target rest i d ≠ [] →
      sumAt amounts (subsetSumGo target rest i d) = target ∧
      (subsetSumGo target rest i d).Chain' (· < ·) ∧
      ∀ j ∈ subsetSumGo target rest i d, j < amounts.length := by
  intro rest
  induction rest with
  | nil =>
    intro i d _ _ hne
    simp [subsetSumGo] at hne
  | cons p rest ih =>
    intro i d hdrop hd hne
    have hp : amounts[i]?.getD 0 = p := getD_of_drop hdrop
    have hlen : i < amounts.length := lt_length_of_drop hdrop
    rw [subsetSumGo] at hne ⊢
    by_cases h0 : target - p = 0
    · simp only [h0, if_true]
      have : p = target := by linarith [sub_eq_zero.1 h0]
      refine ⟨by simp [sumAt, hp, this], List.chain'_singleton i, by simpa using hlen⟩
    · simp only [h0, if_false] at hne ⊢
      cases hfind : dictLookup d (target - p) with
      | some ls =>
        simp only [hfind]
        obtain ⟨h1, _h2, h3, h4⟩ := hd _ (dictLookup_mem hfind)
        refine ⟨?_, chain'_snoc_of_bound h3 h4, ?_⟩
        · rw [sumAt_append, h1]
          simp [sumAt, hp]
        · intro j hj
          rcases List.mem_append.1 hj with h | h
          · exact lt_of_lt_of_le (h4 j h) (Nat.le_of_lt hlen)
          · simp at h; omega
      | none =>
        simp only [hfind] at hne ⊢
        exact ih (i + 1) (updateDict d p i) (drop_succ_of_drop hdrop)
          (updateDict_sound hp hd) hne

/-- Claim C1: soundness of the subset-sum search. Whenever
`subset_sum amounts target` returns a non-empty list of indices, the amounts
at those indices sum exactly to the target. -/
theorem subset_sum_sound (amounts : List Amount) (target : Amount)
    (h : subset_sum amounts target ≠ []) :
    sumAt amounts (subset_sum amounts target) = target :=
  (subsetSumGo_sound amounts target amounts 0 [] (by simp) (by simp) h).1

/-- Witness for C1: on amounts `[2, 3, 5]` with target `5` the search
returns a non-empty index list summing to `5`. -/
theorem subset_sum_sound_witness :
    subset_sum [(2 : ℚ), 3, 5] 5 ≠ [] ∧
      sumAt [(2 : ℚ), 3, 5] (subset_sum [(2 : ℚ), 3, 5] 5) = 5 := by
  have h : subset_sum [(2 : ℚ), 3, 5] 5 = [0, 1] := by
    norm_num [subset_sum, subsetSumGo, updateDict, updateEntries, dictLookup]
  have hne : subset_sum [(2 : ℚ), 3, 5] 5 ≠ [] := by rw [h]; simp
  exact ⟨hne, subset_sum_sound [(2 : ℚ), 3, 5] 5 hne⟩

theorem dictLookup_append (d d' : SumDict) (k : Amount) :
    dictLookup (d ++ d') k =
      match dictLookup d k with
      | some v => some v
      | none => dictLookup d' k := by
  induction d with
  | nil => simp [dictLookup]
  | cons kv rest ih =>
    obtain ⟨k', v'⟩ := kv
    by_cases hk : k' = k
    · simp [dictLookup, hk]
    · simp [dictLookup, hk, ih]

theorem dictLookup_isSome_of_mem {d : SumDict} {k : Amount} {v : List Nat}
    (h : (k, v) ∈ d) : (dictLookup d k).isSome := by
  induction d with
  | nil => simp at h
  | cons kv rest ih =>
    obtain ⟨k', v'⟩ := kv
    rcases List.mem_cons.1 h with h | h
    · simp only [Prod.mk.injEq] at h
      simp [dictLookup, h.1]
    · by_cases hk : k' = k
      · simp [dictLookup, hk]
      · simp [dictLookup, hk]
        exact ih h

theorem dictLookup_isSome_iff {d : SumDict} {k : Amount} :
    (dictLookup d k).isSome ↔ ∃ v, (k, v) ∈ d := by
  constructor
  · intro h
    cases hv : dictLookup d k with
    | none => rw [hv] at h; simp at h
    | some v => exact ⟨v, dictLookup_mem hv⟩
  · rintro ⟨v, hv⟩
    exact dictLookup_isSome_of_mem hv

theorem updateEntries_isSome_mono {p : Amount} {i : Nat} {k : Amount} :
    ∀ (snap d : SumDict), (dictLookup d k).isSome →
      (dictLookup (updateEntries p i snap d) k).isSome := by
  intro snap
  induction snap with
  | nil => intro d h; exact h
  | cons kv snap ih =>
    obtain ⟨k', v'⟩ := kv
    intro d h
    rw [updateEntries]
    by_cases hmem : (dictLookup d (k' + p)).isSome
    · rw [if_pos hmem]
      exact ih d h
    · rw [if_neg hmem]
      refine ih _ ?_
      rw [dictLookup_append]
      cases hv : dictLookup d k with
      | none => rw [hv] at h; simp at h
      | some v => simp

theorem updateEntries_adds {p : Amount} {i : Nat} {k : Amount} {v : List Nat} :
    ∀ (snap d : SumDict), (k, v) ∈ snap →
      (dictLookup (updateEntries p i snap d) (k + p)).isSome := by
  intro snap
  induction snap with
  | nil => intro d h; simp at h
  | cons kv snap ih =>
    obtain ⟨k', v'⟩ := kv
    intro d h
    rw [updateEntries]
    rcases List.mem_cons.1 h with h | h
    · simp only [Prod.mk.injEq] at h
      obtain ⟨hk, _⟩ := h
      subst hk
      by_cases hmem : (dictLookup d (k + p)).isSome
      · rw [if_pos hmem]
        exact updateEntries_isSome_mono snap d hmem
      · rw [if_neg hmem]
        refine updateEntries_isSome_mono snap _ ?_
        rw [dictLookup_append]
        cases hv : dictLookup d (k + p) with
        | none => simp [dictLookup]
        | some v'' => rw [hv] at hmem; simp at hmem
    · by_cases hmem : (dictLookup d (k' + p)).isSome
      · rw [if_pos hmem]
        exact ih d h
      · rw [if_neg hmem]
        exact ih _ h

theorem updateEntries_keys_sub {p : Amount} {i : Nat} {s : Amount} :
    ∀ (snap d : SumDict),
      (dictLookup (updateEntries p i snap d) s).isSome →
      (dictLookup d s).isSome ∨ ∃ kv ∈ snap, s = kv.1 + p := by
  intro snap
  induction snap with
  | nil => intro d h; exact Or.inl h
  | cons kv snap ih =>
    obtain ⟨k', v'⟩ := kv
    intro d h
    rw [updateEntries] at h
    by_cases hmem : (dictLookup d (k' + p)).isSome
    · rw [if_pos hmem] at h
      rcases ih d h with h | ⟨kv, hkv, hs⟩
      · exact Or.inl h
      · exact Or.inr ⟨kv, List.mem_cons_of_mem _ hkv, hs⟩
    · rw [if_neg hmem] at h
      rcases ih _ h with h | ⟨kv, hkv, hs⟩
      · rw [dictLookup_append] at h
        cases hv : dictLookup d s with
        | some v => exact Or.inl (by simp [hv])
        | none =>
          rw [hv] at h
          simp only [dictLookup] at h
          by_cases hs : k' + p = s
          · exact Or.inr ⟨(k', v'), List.mem_cons_self _ _, hs.symm⟩
          · simp [hs, dictLookup] at h
      · exact Or.inr ⟨kv, List.mem_cons_of_mem _ hkv, hs⟩

theorem updateDict_isSome_mono {d : SumDict} {p : Amount} {i : Nat} {k : Amount}
    (h : (dictLookup d k).isSome) : (dictLookup (updateDict d p i) k).isSome := by
  rw [updateDict]
  have h1 := @updateEntries_isSome_mono p i k d d h
  by_cases hmem : (dictLookup (updateEntries p i d d) p).isSome
  · rw [if_pos hmem]; exact h1
  · rw [if_neg hmem]
    rw [dictLookup_append]
    cases hv : dictLookup (updateEntries p i d d) k with
    | none => rw [hv] at h1; simp at h1
    | some v => simp

theorem updateDict_adds_shift {d : SumDict} {p : Amount} {i : Nat} {k : Amount}
    {v : List Nat} (h : (k, v) ∈ d) :
    (dictLookup (updateDict d p i) (k + p)).isSome := by
  rw [updateDict]
  have h1 := @updateEntries_adds p i k v d d h
  by_cases hmem : (dictLookup (updateEntries p i d d) p).isSome
  · rw [if_pos hmem]; exact h1
  · rw [if_neg hmem]
    rw [dictLookup_append]
    cases hv : dictLookup (updateEntries p i d d) (k + p) with
    | none => rw [hv] at h1; simp at h1
    | some v => simp

theorem updateDict_adds_self {d : SumDict} {p : Amount} {i : Nat} :
    (dictLookup (updateDict d p i) p).isSome := by
  rw [updateDict]
  by_cases hmem : (dictLookup (updateEntries p i d d) p).isSome
  · rw [if_pos hmem]; exact hmem
  · rw [if_neg hmem]
    rw [dictLookup_append]
    cases hv : dictLookup (updateEntries p i d d) p with
    | none => simp [dictLookup]
    | some v => rw [hv] at hmem; simp at hmem

theorem updateDict_keys_sub {d : SumDict} {p : Amount} {i : Nat} {s : Amount}
    (h : (dictLookup (updateDict d p i) s).isSome) :
    (dictLookup d s).isSome ∨ (∃ kv ∈ d, s = kv.1 + p) ∨ s = p := by
  rw [updateDict] at h
  by_cases hmem : (dictLookup (updateEntries p i d d) p).isSome
  · rw [if_pos hmem] at h
    rcases updateEntries_keys_sub d d h with h | h
    · exact Or.inl h
    · exact Or.inr (Or.inl h)
  · rw [if_neg hmem] at h
    rw [dictLookup_append] at h
    cases hv : dictLookup (updateEntries p i d d) s with
    | some v =>
      rcases updateEntries_keys_sub d d (by rw [hv]; rfl) with h | h
      · exact Or.inl h
      · exact Or.inr (Or.inl h)
    | none =>
      rw [hv] at h
      simp only [dictLookup] at h
      by_cases hs : p = s
      · exact Or.inr (Or.inr hs.symm)
      · simp [hs, dictLookup] at h

theorem sublist_single {α : Type} {a : α} {l : List α} (h : l.Sublist [a]) :
    l = [] ∨ l = [a] := by
  cases h with
  | cons _ h' => exact Or.inl (List.sublist_nil.1 h')
  | cons₂ _ h' =>
    rename_i l'
    rw [List.sublist_nil.1 h']
    exact Or.inr rfl

theorem take_succ_of_drop {amounts rest : List Amount} {p : Amount} {i : Nat}
    (h : amounts.drop i = p :: rest) :
    amounts.take (i + 1) = amounts.take i ++ [p] := by
  have h0 : amounts[i]? = some p := by
    have := List.getElem?_drop amounts i 0
    rw [h] at this
    simpa using this.symm
  rw [List.take_succ, h0]
  rfl

/-- Main completeness lemma for the subset_sum loop: if the dict keys cover
every achievable partial sum of the processed part, the target is not yet a
key, and some nonempty sublist of the whole input sums to the target, the
loop returns a non-empty result. -/
theorem subsetSumGo_complete (amounts : List Amount) (target : Amount) :
    ∀ (rest : List Amount) (i : Nat) (d : SumDict),
      amounts.drop i = rest →
      KeysComplete amounts i d →
      ¬(dictLookup d target).isSome →
      (∃ l : List Amount, l ≠ [] ∧ l.Sublist amounts ∧ l.sum = target) →
      subsetSumGo target rest i d ≠ [] := by
  intro rest
  induction rest with
  | nil =>
    intro i d hdrop hkeys htgt hex
    obtain ⟨l, hne, hsub, hsum⟩ := hex
    have htake : amounts.take i = amounts := by
      have hlen : amounts.length ≤ i := by
        have := congrArg List.length hdrop
        rw [List.length_drop] at this
        simp at this
        omega
      exact List.take_of_length_le hlen
    have hsome := hkeys l hne (by rw [htake]; exact hsub)
    rw [hsum] at hsome
    exact absurd hsome htgt
  | cons p rest ih =>
    intro i d hdrop hkeys htgt hex
    rw [subsetSumGo]
    by_cases h0 : target - p = 0
    · simp [h0]
    · simp only [h0, if_false]
      cases hfind : dictLookup d (target - p) with
      | some ls => simp
      | none =>
        refine ih (i + 1) (updateDict d p i) (drop_succ_of_drop hdrop) ?_ ?_ hex
        · -- KeysComplete is preserved
          intro l hne hsub
          rw [take_succ_of_drop hdrop] at hsub
          rcases List.sublist_append_iff.1 hsub with ⟨l₁, l₂, rfl, h₁, h₂⟩
          rcases sublist_single h₂ with rfl | rfl
          · rw [List.append_nil] at hne ⊢
            exact updateDict_isSome_mono (hkeys l₁ hne h₁)
          · by_cases hl : l₁ = []
            · subst hl
              simpa using updateDict_adds_self
            · obtain ⟨v, hv⟩ := dictLookup_isSome_iff.1 (hkeys l₁ hl h₁)
              have := @updateDict_adds_shift _ p i _ _ hv
              simpa using this
        · -- the target is still not a key after the update
          intro h
          rcases updateDict_keys_sub h with h | ⟨kv, hkv, hs⟩ | h
          · exact htgt h
          · have : kv.1 = target - p := by rw [hs]; ring
            have hsome : (dictLookup d (target - p)).isSome := by
              obtain ⟨k, v⟩ := kv
              simp only at this
              subst this
              exact dictLookup_isSome_of_mem hkv
            rw [hfind] at hsome
            simp at hsome
          · exact h0 (by rw [h]; ring)

/-- Claim C2: completeness of the subset-sum search. Whenever some nonempty
subset (subsequence) of the amounts sums exactly to the target,
`subset_sum` returns a non-empty index list; equivalently it returns `[]`
only if no nonempty subset sums to the target. -/
theorem subset_sum_complete (amounts : List Amount) (target : Amount)
    (h : ∃ l : List Amount, l ≠ [] ∧ l.Sublist amounts ∧ l.sum = target) :
    subset_sum amounts target ≠ [] :=
  subsetSumGo_complete amounts target amounts 0 [] (by simp)
    (fun l hne hsub => by simp at hsub; exact absurd hsub hne) (by simp [dictLookup]) h

/-- Witness for C2: amounts `[7, 3, 9]` contain the nonempty subset
`[7, 9]` summing to `16`, and the search indeed returns a nonempty list. -/
theorem subset_sum_complete_witness :
    (∃ l : List Amount, l ≠ [] ∧ l.Sublist [(7 : ℚ), 3, 9] ∧ l.sum = 16) ∧
      subset_sum [(7 : ℚ), 3, 9] 16 ≠ [] := by
  have hex : ∃ l : List Amount, l ≠ [] ∧ l.Sublist [(7 : ℚ), 3, 9] ∧ l.sum = 16 := by
    refine ⟨[(7 : ℚ), 9], by simp, ?_, by norm_num⟩
    exact (List.sublist_cons_self _ _).cons₂ 7 |>.trans (List.Sublist.refl _)
  exact ⟨hex, subset_sum_complete [(7 : ℚ), 3, 9] 16 hex⟩

/-- Claim C10: the index list returned by `subset_sum` is strictly
increasing (hence the indices are pairwise distinct) and every index is
within the bounds of the input list, so `find_subset` never selects the
same posting twice and never indexes out of range. -/
theorem subset_sum_indices_valid (amounts : List Amount) (target : Amount) :
    (subset_sum amounts target).Chain' (· < ·) ∧
      ∀ j ∈ subset_sum amounts target, j < amounts.length := by
  by_cases h : subset_sum amounts target = []
  · rw [h]
    exact ⟨List.chain'_nil, by simp⟩
  · exact (subsetSumGo_sound amounts target amounts 0 [] (by simp) (by simp) h).2

theorem alistLookup_insert {α β : Type} [DecidableEq α]
    (d : List (α × β)) (k : α) (v : β) (k' : α) :
    alistLookup (alistInsert d k v) k' = if k = k' then some v else alistLookup d k' := by
  induction d with
  | nil =>
    by_cases h : k = k' <;> simp [alistInsert, alistLookup, h]
  | cons kv rest ih =>
    obtain ⟨k₀, v₀⟩ := kv
    by_cases h0 : k₀ = k
    · subst h0
      by_cases h : k₀ = k' <;> simp [alistInsert, alistLookup, h]
    · by_cases h : k₀ = k'
      · subst h
        have hkk : ¬k = k₀ := fun hh => h0 hh.symm
        simp [alistInsert, alistLookup, h0, hkk]
      · simp [alistInsert, alistLookup, h0, h, ih]

theorem alistInsert_of_lookup_none {α β : Type} [DecidableEq α]
    {d : List (α × β)} {k : α} (v : β) (h : alistLookup d k = none) :
    alistInsert d k v = d ++ [(k, v)] := by
  induction d with
  | nil => simp [alistInsert]
  | cons kv rest ih =>
    obtain ⟨k₀, v₀⟩ := kv
    by_cases h0 : k₀ = k
    · simp [alistLookup, h0] at h
    · simp [alistLookup, h0] at h
      simp [alistInsert, h0, ih h]

theorem mem_of_alistLookup_eq {α β : Type} [DecidableEq α]
    {d : List (α × β)} {k : α} {v : β} (h : alistLookup d k = some v) : (k, v) ∈ d := by
  induction d with
  | nil => simp [alistLookup] at h
  | cons kv rest ih =>
    obtain ⟨k₀, v₀⟩ := kv
    by_cases h0 : k₀ = k
    · subst h0
      simp [alistLookup] at h
      subst h
      exact List.mem_cons_self _ _
    · simp [alistLookup, h0] at h
      exact List.mem_cons_of_mem _ (ih h)

theorem length_drop_sub {α : Type} (l : List α) (i : Nat) (h : i ≤ l.length) :
    (l.drop (l.length - i)).length = i := by
  simp [List.length_drop]
  omega

/-- Effect of the inner registration fold on a single key, for a list of
pairwise-distinct indices within `1 ≤ idx < len`. -/
theorem registerShortFold_lookup (a : Account) (q : QName) :
    ∀ (L : List Nat) (short : List (QName × List Account)),
      L.Nodup → (∀ idx ∈ L, 1 ≤ idx ∧ idx < a.qname.length) →
      alistLookup
        (L.foldl
          (fun sh idx =>
            alistInsert sh (a.qname.drop (a.qname.length - idx))
              ((alistLookup sh (a.qname.drop (a.qname.length - idx))).getD [] ++ [a]))
          short) q =
        if ∃ idx ∈ L, q = a.qname.drop (a.qname.length - idx) then
          some ((alistLookup short q).getD [] ++ [a])
        else alistLookup short q := by
  intro L
  induction L with
  | nil => intro short _ _; simp
  | cons idx₀ L ih =>
    intro short hnodup hbound
    have hb₀ := hbound idx₀ (List.mem_cons_self _ _)
    have hlen₀ : (a.qname.drop (a.qname.length - idx₀)).length = idx₀ :=
      length_drop_sub _ _ (Nat.le_of_lt hb₀.2)
    rw [List.foldl_cons]
    rw [ih _ (List.nodup_cons.1 hnodup).2 (fun idx h => hbound idx (List.mem_cons_of_mem _ h))]
    by_cases hq : q = a.qname.drop (a.qname.length - idx₀)
    · have hnot : ¬∃ idx ∈ L, q = a.qname.drop (a.qname.length - idx) := by
        rintro ⟨idx, hidx, hdrop⟩
        have hb := hbound idx (List.mem_cons_of_mem _ hidx)
        have hlen : (a.qname.drop (a.qname.length - idx)).length = idx :=
          length_drop_sub _ _ (Nat.le_of_lt hb.2)
        have : idx₀ = idx := by
          rw [hq] at hdrop
          have := congrArg List.length hdrop
          rw [hlen₀, hlen] at this
          exact this
        exact (List.nodup_cons.1 hnodup).1 (this ▸ hidx)
      rw [if_neg hnot, if_pos ⟨idx₀, List.mem_cons_self _ _, hq⟩]
      rw [alistLookup_insert]
      simp [hq]
    · have hiff : (∃ idx ∈ idx₀ :: L, q = a.qname.drop (a.qname.length - idx)) ↔
          (∃ idx ∈ L, q = a.qname.drop (a.qname.length - idx)) := by
        constructor
        · rintro ⟨idx, hidx, hdrop⟩
          rcases List.mem_cons.1 hidx with rfl | h
          · exact absurd hdrop hq
          · exact ⟨idx, h, hdrop⟩
        · rintro ⟨idx, hidx, hdrop⟩
          exact ⟨idx, List.mem_cons_of_mem _ hidx, hdrop⟩
      have hlk : alistLookup
          (alistInsert short (a.qname.drop (a.qname.length - idx₀))
            ((alistLookup short (a.qname.drop (a.qname.length - idx₀))).getD [] ++ [a])) q =
          alistLookup short q := by
        rw [alistLookup_insert, if_neg (fun h => hq h.symm)]
      simp only [hlk, hiff]

/-- Effect of registerShort on a single key: the buckets of all strict
suffixes of the new account's name gain the account at the end; all other
keys are untouched. -/
theorem registerShort_lookup (a : Account) (short : List (QName × List Account)) (q : QName) :
    alistLookup (registerShort a short) q =
      if isStrictSuffix q a.qname then
        some ((alistLookup short q).getD [] ++ [a])
      else alistLookup short q := by
  rw [registerShort]
  rw [registerShortFold_lookup a q (List.range' 1 (a.qname.length - 1)) short
    (List.nodup_range' 1 _) ?hb]
  case hb =>
    intro idx hidx
    rw [List.mem_range'] at hidx
    obtain ⟨i, hi, rfl⟩ := hidx
    omega
  have hcond : (∃ idx ∈ List.range' 1 (a.qname.length - 1),
      q = a.qname.drop (a.qname.length - idx)) ↔ isStrictSuffix q a.qname = true := by
    constructor
    · rintro ⟨idx, hidx, rfl⟩
      rw [List.mem_range'] at hidx
      obtain ⟨i, hi, rfl⟩ := hidx
      have hlen : (a.qname.drop (a.qname.length - (1 + 1 * i))).length = 1 + 1 * i :=
        length_drop_sub _ _ (by omega)
      simp only [isStrictSuffix, hlen]
      refine by simp [hlen]; omega
    · intro h
      simp only [isStrictSuffix, Bool.and_eq_true, decide_eq_true_eq, beq_iff_eq] at h
      obtain ⟨⟨h1, h2⟩, h3⟩ := h
      refine ⟨q.length, ?_, h3.symm⟩
      rw [List.mem_range']
      exact ⟨q.length - 1, by omega, by omega⟩
  by_cases h : isStrictSuffix q a.qname
  · rw [if_pos (hcond.2 h), if_pos h]
  · rw [if_neg (fun hc => by rw [hcond.1 hc] at h; exact h rfl), if_neg h]

theorem chartInv_empty : ChartInv ⟨[], []⟩ := by
  refine ⟨?_, ?_, ?_⟩ <;> intro q <;> simp [alistLookup, Chart.accountsOf]

theorem chartInv_commit {c : Chart} {a : Account}
    (hnone : alistLookup c.full_qname_dict a.qname = none) (hInv : ChartInv c) :
    ChartInv ⟨alistInsert c.full_qname_dict a.qname a,
        registerShort a c.short_qname_dict⟩ ∧
      Chart.accountsOf ⟨alistInsert c.full_qname_dict a.qname a,
        registerShort a c.short_qname_dict⟩ = c.accountsOf ++ [a] := by
  obtain ⟨hfull, hshort, hne⟩ := hInv
  have hfull' : alistInsert c.full_qname_dict a.qname a =
      c.full_qname_dict ++ [(a.qname, a)] := alistInsert_of_lookup_none a hnone
  have haccs : Chart.accountsOf ⟨alistInsert c.full_qname_dict a.qname a,
      registerShort a c.short_qname_dict⟩ = c.accountsOf ++ [a] := by
    simp [Chart.accountsOf, hfull']
  refine ⟨⟨?_, ?_, ?_⟩, haccs⟩
  · intro q x hx
    simp only at hx
    rw [alistLookup_insert] at hx
    by_cases hq : a.qname = q
    · rw [if_pos hq] at hx
      cases hx
      exact hq
    · rw [if_neg hq] at hx
      exact hfull q x hx
  · intro q
    simp only [haccs]
    rw [List.filter_append]
    simp only [registerShort_lookup]
    by_cases hs : isStrictSuffix q a.qname
    · rw [if_pos hs]
      simp [hshort q, hs]
    · rw [if_neg hs]
      simp [hshort q, hs]
  · intro q ls hls
    simp only [registerShort_lookup] at hls
    by_cases hs : isStrictSuffix q a.qname
    · rw [if_pos hs] at hls
      cases hls
      simp
    · rw [if_neg hs] at hls
      exact hne q ls hls

theorem chartInv_addAccount {c c' : Chart} {a : Account}
    (h : c.addAccount a = .ok c') (hInv : ChartInv c) :
    ChartInv c' ∧ c'.accountsOf = c.accountsOf ++ [a] := by
  rw [Chart.addAccount] at h
  split at h
  · exact absurd h (by simp)
  · rename_i hdup
    have hnone : alistLookup c.full_qname_dict a.qname = none :=
      Option.not_isSome_iff_eq_none.1 hdup
    split at h
    · split at h
      · cases h
        exact chartInv_commit hnone hInv
      · exact absurd h (by simp)
    · cases h
      exact chartInv_commit hnone hInv

theorem chartInv_addAccounts :
    ∀ (accs : List Account) (c c' : Chart),
      c.addAccounts accs = .ok c' → ChartInv c → ChartInv c' := by
  intro accs
  induction accs with
  | nil =>
    intro c c' h hInv
    rw [Chart.addAccounts] at h
    cases h
    exact hInv
  | cons a rest ih =>
    intro c c' h hInv
    rw [Chart.addAccounts] at h
    cases ha : c.addAccount a with
    | error e => rw [ha] at h; exact absurd h (by simp)
    | ok c₁ =>
      rw [ha] at h
      exact ih c₁ c' h (chartInv_addAccount ha hInv).1

/-- Claim C6: name-resolution precedence. On a chart built through
add_accounts, a query that is a registered full name resolves to the
account with that full name (even if it is also a suffix of other
accounts); otherwise resolution succeeds iff exactly one registered
account has the query as a suffix, is ambiguous on two or more matches,
and is unknown on zero matches. -/
theorem chart_account_resolution (accs : List Account) (c : Chart)
    (hc : Chart.addAccounts ⟨[], []⟩ accs = .ok c) (q : QName) :
    (∀ a, alistLookup c.full_qname_dict q = some a →
      c.account q = .ok a ∧ a.qname = q) ∧
    (alistLookup c.full_qname_dict q = none →
      (∀ a, c.account q = .ok a ↔ suffixMatches c q = [a]) ∧
      (c.account q = .error .ambiguous ↔ 2 ≤ (suffixMatches c q).length) ∧
      (c.account q = .error .unknown ↔ suffixMatches c q = [])) := by
  obtain ⟨hfull, hshort, hne⟩ := chartInv_addAccounts accs _ c hc chartInv_empty
  constructor
  · intro a ha
    refine ⟨?_, hfull q a ha⟩
    rw [Chart.account, ha]
  · intro hnone
    cases hsq : alistLookup c.short_qname_dict q with
    | none =>
      have hfilter : suffixMatches c q = [] := by
        have h := hshort q
        rw [hsq] at h
        simpa [suffixMatches] using h.symm
      have hacc : c.account q = .error .unknown := by
        rw [Chart.account, hnone, hsq]
      refine ⟨?_, ?_, ?_⟩
      · intro a
        constructor
        · intro h
          rw [hacc] at h
          exact absurd h (by simp)
        · intro h
          rw [hfilter] at h
          exact absurd h (by simp)
      · constructor
        · intro h
          rw [hacc] at h
          exact absurd h (by simp)
        · intro h
          rw [hfilter] at h
          simp at h
      · exact ⟨fun _ => hfilter, fun _ => hacc⟩
    | some ls =>
      have hlsne := hne q ls hsq
      have hfilter : suffixMatches c q = ls := by
        have h := hshort q
        rw [hsq] at h
        simpa [suffixMatches] using h.symm
      match ls, hlsne with
      | [a₀], _ =>
        have hacc : c.account q = .ok a₀ := by
          rw [Chart.account, hnone, hsq]
        refine ⟨?_, ?_, ?_⟩
        · intro a
          constructor
          · intro h
            rw [hacc] at h
            cases h
            exact hfilter
          · intro h
            rw [hfilter] at h
            cases h
            exact hacc
        · constructor
          · intro h
            rw [hacc] at h
            exact absurd h (by simp)
          · intro h
            rw [hfilter] at h
            simp at h
        · constructor
          · intro h
            rw [hacc] at h
            exact absurd h (by simp)
          · intro h
            rw [hfilter] at h
            exact absurd h (by simp)
      | a₀ :: a₁ :: rest, _ =>
        have hacc : c.account q = .error .ambiguous := by
          rw [Chart.account, hnone, hsq]
        refine ⟨?_, ?_, ?_⟩
        · intro a
          constructor
          · intro h
            rw [hacc] at h
            exact absurd h (by simp)
          · intro h
            rw [hfilter] at h
            exact absurd h (by simp)
        · constructor
          · intro _
            rw [hfilter]
            simp
          · intro _
            exact hacc
        · constructor
          · intro h
            rw [hacc] at h
            exact absurd h (by simp)
          · intro h
            rw [hfilter] at h
            exact absurd h (by simp)

/-- Witness for C6: on the demonstration chart, `Foo:Checking` resolves to
the account with that exact full name, not to `Assets:Foo:Checking`. -/
theorem chart_account_resolution_witness :
    alistLookup demoChart.full_qname_dict ["Foo", "Checking"] =
        some ⟨["Foo", "Checking"], []⟩ ∧
      demoChart.account ["Foo", "Checking"] = .ok ⟨["Foo", "Checking"], []⟩ := by
  have h := chart_account_resolution demoAccs demoChart (by rfl) ["Foo", "Checking"]
  have hlk : alistLookup demoChart.full_qname_dict ["Foo", "Checking"] =
      some ⟨["Foo", "Checking"], []⟩ := by decide
  exact ⟨hlk, (h.1 _ hlk).1⟩

theorem shortQnameLoop_round_trip {c : Chart} (hInv : ChartInv c)
    {f : QName} {acc : Account}
    (hreg : alistLookup c.full_qname_dict f = some acc) :
    ∀ (n i : Nat), f.length - i ≤ n → (0 < i ∨ f.length ≤ i) →
      ∃ s, shortQnameLoop c f i = some s ∧ c.account s = .ok acc := by
  obtain ⟨hfull, hshort, hne⟩ := hInv
  have hqn : acc.qname = f := hfull f acc hreg
  have hmem : acc ∈ c.accountsOf := by
    have := mem_of_alistLookup_eq hreg
    exact List.mem_map.2 ⟨(f, acc), this, rfl⟩
  have hfallback : c.account f = .ok acc := by
    rw [Chart.account, hreg]
  intro n
  induction n with
  | zero =>
    intro i hn _
    have hge : f.length ≤ i := by omega
    rw [shortQnameLoop, dif_neg (by omega)]
    exact ⟨f, rfl, hfallback⟩
  | succ n ih =>
    intro i hn hi
    by_cases hlt : i < f.length
    · have hipos : 0 < i := by omega
      have hs_len : (f.drop (f.length - i)).length = i := length_drop_sub _ _ (by omega)
      have hsuf : isStrictSuffix (f.drop (f.length - i)) acc.qname = true := by
        rw [hqn]
        simp only [isStrictSuffix, hs_len, Bool.and_eq_true, decide_eq_true_eq, beq_iff_eq]
        exact ⟨⟨hipos, hlt⟩, trivial⟩
      rw [shortQnameLoop, dif_pos hlt]
      by_cases hfl : (alistLookup c.full_qname_dict (f.drop (f.length - i))).isSome
      · rw [if_pos hfl]
        exact ih (i + 1) (by omega) (by omega)
      · rw [if_neg hfl]
        have hmemfilter : acc ∈ c.accountsOf.filter
            (fun a => isStrictSuffix (f.drop (f.length - i)) a.qname) :=
          List.mem_filter.2 ⟨hmem, hsuf⟩
        cases hsq : alistLookup c.short_qname_dict (f.drop (f.length - i)) with
        | none =>
          have h := hshort (f.drop (f.length - i))
          rw [hsq] at h
          rw [← h] at hmemfilter
          simp at hmemfilter
        | some ls =>
          have h := hshort (f.drop (f.length - i))
          rw [hsq] at h
          simp only [Option.getD_some] at h
          show ∃ s, (if ls.length = 1 then some (f.drop (f.length - i))
              else shortQnameLoop c f (i + 1)) = some s ∧ c.account s = .ok acc
          by_cases hone : ls.length = 1
          · rw [if_pos hone]
            refine ⟨f.drop (f.length - i), rfl, ?_⟩
            have hls : ls = [acc] := by
              obtain ⟨x, hx⟩ := List.length_eq_one.1 hone
              rw [← h] at hmemfilter
              rw [hx] at hmemfilter ⊢
              simp at hmemfilter
              rw [hmemfilter]
            rw [Chart.account, Option.not_isSome_iff_eq_none.1 hfl, hsq, hls]
          · rw [if_neg hone]
            exact ih (i + 1) (by omega) (by omega)
    · rw [shortQnameLoop, dif_neg hlt]
      exact ⟨f, rfl, hfallback⟩

/-- Claim C7: shortest-unique-name round trip. On a chart built through
add_accounts, for every registered account with full name `f` and any
minimum-length strategy, `short_qname` succeeds and the name it returns
resolves to the same account as `f` itself. -/
theorem short_qname_round_trip (accs : List Account) (c : Chart)
    (hc : Chart.addAccounts ⟨[], []⟩ accs = .ok c) (minLen : QName → Nat)
    (f : QName) (acc : Account)
    (hreg : alistLookup c.full_qname_dict f = some acc) :
    ∃ s, c.short_qname minLen f = .ok (some s) ∧
      c.account s = .ok acc ∧ c.account f = .ok acc := by
  have hInv := chartInv_addAccounts accs _ c hc chartInv_empty
  have hqn : acc.qname = f := hInv.1 f acc hreg
  subst hqn
  have hffull : c.account acc.qname = .ok acc := by
    rw [Chart.account, hreg]
  obtain ⟨s, hs, hsacc⟩ := shortQnameLoop_round_trip hInv hreg
    (acc.qname.length - min (max (minLen acc.qname) 1) acc.qname.length)
    (min (max (minLen acc.qname) 1) acc.qname.length) (by omega) (by omega)
  refine ⟨s, ?_, hsacc, hffull⟩
  rw [Chart.short_qname, hffull]
  show Except.ok (shortQnameLoop c acc.qname
      (min (max (minLen acc.qname) 1) acc.qname.length)) = Except.ok (some s)
  rw [hs]

/-- Witness for C7: on the demonstration chart, the shortest unique name
of `Assets:Foo:Checking` resolves back to that same account. -/
theorem short_qname_round_trip_witness :
    alistLookup demoChart.full_qname_dict ["Assets", "Foo", "Checking"] =
        some ⟨["Assets", "Foo", "Checking"], []⟩ ∧
      ∃ s, demoChart.short_qname (fun _ => 1) ["Assets", "Foo", "Checking"] =
          .ok (some s) ∧
        demoChart.account s = .ok ⟨["Assets", "Foo", "Checking"], []⟩ ∧
        demoChart.account ["Assets", "Foo", "Checking"] =
          .ok ⟨["Assets", "Foo", "Checking"], []⟩ := by
  have hlk : alistLookup demoChart.full_qname_dict ["Assets", "Foo", "Checking"] =
      some ⟨["Assets", "Foo", "Checking"], []⟩ := by decide
  exact ⟨hlk, short_qname_round_trip demoAccs demoChart (by rfl) (fun _ => 1)
    ["Assets", "Foo", "Checking"] ⟨["Assets", "Foo", "Checking"], []⟩ hlk⟩

theorem toFinset_card_one_iff {α : Type} [DecidableEq α] {l : List α} (h : l ≠ []) :
    l.toFinset.card = 1 ↔ ∀ a ∈ l, ∀ b ∈ l, a = b := by
  constructor
  · intro hcard a ha b hb
    obtain ⟨x, hx⟩ := Finset.card_eq_one.1 hcard
    have hax : a ∈ l.toFinset := List.mem_toFinset.2 ha
    have hbx : b ∈ l.toFinset := List.mem_toFinset.2 hb
    rw [hx] at hax hbx
    simp at hax hbx
    rw [hax, hbx]
  · intro hall
    match l, h with
    | x :: rest, _ =>
      apply Finset.card_eq_one.2
      refine ⟨x, ?_⟩
      ext y
      simp only [List.mem_toFinset, Finset.mem_singleton]
      constructor
      · intro hy
        exact hall y hy x (List.mem_cons_self _ _)
      · intro hy
        rw [hy]
        exact List.mem_cons_self _ _

/-- Claim C8: double-entry balance invariant. A transaction is
successfully constructed iff it has at least two postings, all sharing one
txn id and one date, and its amounts sum exactly to zero; the constructed
transaction carries exactly the given postings. Equivalently, construction
raises on an empty list, fewer than two postings, more than one distinct
txn id, more than one distinct date, or a nonzero sum. -/
theorem mkTxn_spec (ps : List Posting) :
    (∃ t, mkTxn ps = .ok t ∧ t.postings = ps) ↔
      (2 ≤ ps.length ∧
        (∀ p ∈ ps, ∀ q ∈ ps, p.txnid = q.txnid) ∧
        (∀ p ∈ ps, ∀ q ∈ ps, p.date = q.date) ∧
        (ps.map (·.amount)).sum = 0) := by
  constructor
  · rintro ⟨t, hok, hps⟩
    rw [mkTxn] at hok
    split at hok
    · exact absurd hok (by simp)
    · rename_i hne
      split at hok
      · exact absurd hok (by simp)
      · rename_i htxnid
        split at hok
        · exact absurd hok (by simp)
        · rename_i hlen
          split at hok
          · exact absurd hok (by simp)
          · rename_i hdate
            split at hok
            · exact absurd hok (by simp)
            · rename_i hsum
              push_neg at htxnid hdate hsum
              refine ⟨by omega, ?_, ?_, hsum⟩
              · intro p hp q hq
                have := (toFinset_card_one_iff (by simp [hne])).1 htxnid
                  p.txnid (List.mem_map_of_mem _ hp) q.txnid (List.mem_map_of_mem _ hq)
                exact this
              · intro p hp q hq
                exact (toFinset_card_one_iff (by simp [hne])).1 hdate
                  p.date (List.mem_map_of_mem _ hp) q.date (List.mem_map_of_mem _ hq)
  · rintro ⟨hlen, htxnid, hdate, hsum⟩
    have hne : ps ≠ [] := by
      intro h
      rw [h] at hlen
      simp at hlen
    have htx : (ps.map (·.txnid)).toFinset.card = 1 := by
      refine (toFinset_card_one_iff (by simp [hne])).2 ?_
      intro a ha b hb
      obtain ⟨p, hp, rfl⟩ := List.mem_map.1 ha
      obtain ⟨q, hq, rfl⟩ := List.mem_map.1 hb
      exact htxnid p hp q hq
    have hdt : (ps.map (·.date)).toFinset.card = 1 := by
      refine (toFinset_card_one_iff (by simp [hne])).2 ?_
      intro a ha b hb
      obtain ⟨p, hp, rfl⟩ := List.mem_map.1 ha
      obtain ⟨q, hq, rfl⟩ := List.mem_map.1 hb
      exact hdate p hp q hq
    refine ⟨⟨ps⟩, ?_, rfl⟩
    rw [mkTxn, if_neg hne, if_neg (by rw [htx]; simp), if_neg (by omega),
      if_neg (by rw [hdt]; simp), if_neg (by rw [hsum]; simp)]

theorem addBAssertionsGo_error_state :
    ∀ (bs acc : List BAssertion) (j : Journal) (r : Journal × Option String),
      j.addBAssertionsGo bs acc = r → (r.2).isSome →
      (r.1.accounts = j.accounts ∧
        r.1.postings = j.postings ∧
        r.1.txns_dict = j.txns_dict ∧
        r.1.bassertions = j.bassertions ∧
        r.1.next_txn_id = j.next_txn_id ∧
        r.1.full_qname_dict = j.full_qname_dict ∧
        r.1.short_qname_dict = j.short_qname_dict ∧
        r.1.targets = j.targets) ∧
      ∃ extra, r.1.bassertions_set = j.bassertions_set ++ extra := by
  intro bs
  induction bs with
  | nil =>
    intro acc j r hr h
    rw [Journal.addBAssertionsGo] at hr
    subst hr
    simp at h
  | cons b rest ih =>
    intro acc j r hr h
    rw [Journal.addBAssertionsGo] at hr
    split at hr
    · subst hr
      exact ⟨⟨rfl, rfl, rfl, rfl, rfl, rfl, rfl, rfl⟩, [], by simp⟩
    · split at hr
      · subst hr
        exact ⟨⟨rfl, rfl, rfl, rfl, rfl, rfl, rfl, rfl⟩, [], by simp⟩
      · rename_i fq _
        split at hr
        · subst hr
          exact ⟨⟨rfl, rfl, rfl, rfl, rfl, rfl, rfl, rfl⟩, [], by simp⟩
        · obtain ⟨hcomp, extra, hset⟩ := ih (acc ++ [{ b with acc_qname := fq }])
            { j with bassertions_set := j.bassertions_set ++ [(b.date, fq)] } r hr h
          refine ⟨hcomp, (b.date, fq) :: extra, ?_⟩
          rw [hset]
          simp

/-- Counterexample to claim C4 as stated: a batch whose second assertion
references an unknown account makes add_bassertions raise, yet the dedup
set has already recorded the first assertion's key, so the observable
state after the failed call differs from the state before it. -/
theorem add_bassertions_not_atomic :
    ((c4Journal.add_bassertions [c4Good, c4Bad]).2).isSome ∧
      (c4Journal.add_bassertions [c4Good, c4Bad]).1.bassertions_set ≠
        c4Journal.bassertions_set := by
  constructor
  · decide
  · decide

/-- Claim C4 amended: add_txns is atomic exactly as claimed (a raising
call leaves the journal untouched); a raising add_bassertions leaves every
component untouched except the dedup set, which may retain the keys of the
batch elements validated before the error. -/
theorem mutation_atomicity_amended :
    (∀ (j : Journal) (txns : List Txn) (ig : Bool),
      ((j.add_txns txns ig).2).isSome → (j.add_txns txns ig).1 = j) ∧
    (∀ (j : Journal) (bs : List BAssertion),
      ((j.add_bassertions bs).2).isSome →
      ((j.add_bassertions bs).1.accounts = j.accounts ∧
        (j.add_bassertions bs).1.postings = j.postings ∧
        (j.add_bassertions bs).1.txns_dict = j.txns_dict ∧
        (j.add_bassertions bs).1.bassertions = j.bassertions ∧
        (j.add_bassertions bs).1.next_txn_id = j.next_txn_id ∧
        (j.add_bassertions bs).1.full_qname_dict = j.full_qname_dict ∧
        (j.add_bassertions bs).1.short_qname_dict = j.short_qname_dict ∧
        (j.add_bassertions bs).1.targets = j.targets) ∧
      ∃ extra, (j.add_bassertions bs).1.bassertions_set =
        j.bassertions_set ++ extra) := by
  constructor
  · intro j txns ig h
    revert h
    generalize hr : j.add_txns txns ig = r
    intro h
    rw [Journal.add_txns] at hr
    split at hr
    · subst hr
      rfl
    · split at hr <;> (subst hr; simp at h)
  · intro j bs h
    exact addBAssertionsGo_error_state bs [] j _ rfl h

/-- Witness for the amended C4: a rejected two-posting batch leaves the
empty journal unchanged, and the failing assertion batch leaves the
assertion list (among the other components) unchanged. -/
theorem mutation_atomicity_amended_witness :
    (Journal.add_txns {} [c4Txn] true).1 = {} ∧
      (c4Journal.add_bassertions [c4Good, c4Bad]).1.bassertions =
        c4Journal.bassertions := by
  have h1 : ((Journal.add_txns {} [c4Txn] true).2).isSome := by decide
  have h2 : ((c4Journal.add_bassertions [c4Good, c4Bad]).2).isSome := by decide
  exact ⟨mutation_atomicity_amended.1 {} [c4Txn] true h1,
    (mutation_atomicity_amended.2 c4Journal [c4Good, c4Bad] h2).1.2.2.2.1⟩

theorem foldl_if_add {α : Type} (c : α → Prop) [DecidablePred c] (f : α → Amount) :
    ∀ (l : List α) (init : Amount),
      l.foldl (fun acc x => if c x then acc + f x else acc) init =
        init + ((l.filter (fun x => decide (c x))).map f).sum := by
  intro l
  induction l with
  | nil => intro init; simp
  | cons x rest ih =>
    intro init
    rw [List.foldl_cons]
    by_cases hx : c x
    · rw [if_pos hx]
      rw [ih]
      rw [List.filter_cons_of_pos (by simp [hx])]
      simp [add_assoc]
    · rw [if_neg hx]
      rw [ih]
      rw [List.filter_cons_of_neg (by simp [hx])]

/-- Claim C5: balance with parent rollup. Whenever the queried name
resolves to the full name `fq`, the balance at a date is exactly the sum
of the amounts of the postings whose account equals `fq` or is a strict
descendant of it and whose date (statement date when requested) is at or
before the query date; a posting on a child account is therefore counted
in every ancestor's balance. -/
theorem balance_parent_rollup (j : Journal) (dt : Int) (q : QName)
    (useStmt : Bool) (fq : QName) (hq : j.full_qname q = .ok fq) :
    j.balance dt q useStmt =
      .ok (((j.postings.filter
        (fun p => decide (getDateP useStmt p ≤ dt ∧
          (p.acc_qname == fq || is_descendant_of p.acc_qname fq)))).map
        (·.amount)).sum) := by
  rw [Journal.balance, hq]
  show Except.ok _ = _
  refine congrArg Except.ok ?_
  have h := foldl_if_add
    (fun p : Posting => getDateP useStmt p ≤ dt ∧
      (p.acc_qname == fq || is_descendant_of p.acc_qname fq))
    (·.amount) j.postings 0
  rw [zero_add] at h
  exact h

/-- Witness for C5 (Scenario A): on the concrete journal, the posting on
`Assets:Checking` is counted in the balance of its parent `Assets`, and
the balance equals 100. -/
theorem balance_parent_rollup_witness :
    c5Journal.full_qname ["Assets"] = .ok ["Assets"] ∧
      c5Journal.balance 0 ["Assets"] false =
        .ok (((c5Journal.postings.filter
          (fun p => decide (getDateP false p ≤ 0 ∧
            (p.acc_qname == ["Assets"] ||
              is_descendant_of p.acc_qname ["Assets"])))).map
          (·.amount)).sum) ∧
      ((c5Journal.postings.filter
        (fun p => decide (getDateP false p ≤ 0 ∧
          (p.acc_qname == ["Assets"] ||
            is_descendant_of p.acc_qname ["Assets"])))).map
        (·.amount)).sum = 100 := by
  have hq : c5Journal.full_qname ["Assets"] = .ok ["Assets"] := by rfl
  refine ⟨hq, balance_parent_rollup c5Journal 0 ["Assets"] false ["Assets"] hq, ?_⟩
  have hfil : c5Journal.postings.filter
      (fun p => decide (getDateP false p ≤ 0 ∧
        (p.acc_qname == ["Assets"] ||
          is_descendant_of p.acc_qname ["Assets"]))) = [c5P1] := by decide
  rw [hfil]
  norm_num [c5P1]

theorem mem_alistInsert {α β : Type} [DecidableEq α]
    {d : List (α × β)} {k : α} {v : β} {kv : α × β}
    (h : kv ∈ alistInsert d k v) : kv ∈ d ∨ kv = (k, v) := by
  induction d with
  | nil =>
    simp [alistInsert] at h
    exact Or.inr h
  | cons kv₀ rest ih =>
    obtain ⟨k₀, v₀⟩ := kv₀
    rw [alistInsert] at h
    by_cases hk : k₀ = k
    · rw [if_pos hk] at h
      rcases List.mem_cons.1 h with h | h
      · exact Or.inr h
      · exact Or.inl (List.mem_cons_of_mem _ h)
    · rw [if_neg hk] at h
      rcases List.mem_cons.1 h with h | h
      · exact Or.inl (h ▸ List.mem_cons_self _ _)
      · rcases ih h with h | h
        · exact Or.inl (List.mem_cons_of_mem _ h)
        · exact Or.inr h

theorem listMaxD_ge {xs : List Int} {x : Int} (d : Int) (h : x ∈ xs) :
    x ≤ listMaxD xs d := by
  unfold listMaxD
  match xs, h with
  | y :: rest, h =>
    have hfold : ∀ (l : List Int) (a : Int), a ≤ l.foldl max a ∧
        ∀ z ∈ l, z ≤ l.foldl max a := by
      intro l
      induction l with
      | nil => intro a; exact ⟨le_refl a, by simp⟩
      | cons z rest ih =>
        intro a
        rw [List.foldl_cons]
        refine ⟨le_trans (le_max_left a z) (ih (max a z)).1, ?_⟩
        intro w hw
        rcases List.mem_cons.1 hw with rfl | hw
        · exact le_trans (le_max_right a w) (ih (max a w)).1
        · exact (ih (max a z)).2 w hw
    rcases List.mem_cons.1 h with rfl | h
    · exact (hfold rest x).1
    · exact (hfold rest y).2 x h

theorem rewritePosting_txnid {j : Journal} {ignore : Bool} {id : Int}
    {p p' : Posting} (h : rewritePosting j ignore id p = .ok p') :
    p'.txnid = if ignore then id else p.txnid := by
  rw [rewritePosting] at h
  repeat' split at h
  all_goals first
    | (injection h with h
       subst h
       cases ignore <;> simp_all)
    | injection h

theorem validateTxn_txnid {j : Journal} {id : Int} {t t' : Txn}
    (h : validateTxn j true id t = .ok t') :
    t'.txnid = id ∨ t'.txnid = 0 := by
  rw [validateTxn] at h
  split at h
  · exact absurd h (by simp)
  · split at h
    · exact absurd h (by simp)
    · rename_i ps hps
      cases h
      match t.postings, ps, hps with
      | [], ps, hps =>
        rw [rewritePostings] at hps
        cases hps
        exact Or.inr rfl
      | p :: rest, ps, hps =>
        rw [rewritePostings] at hps
        split at hps
        · exact absurd hps (by simp)
        · rename_i p' hp'
          split at hps
          · exact absurd hps (by simp)
          · cases hps
            refine Or.inl ?_
            have := rewritePosting_txnid hp'
            simpa [Txn.txnid] using this

theorem validateTxns_true_ids {j : Journal} :
    ∀ (ts : List Txn) (id : Int) (ts' : List Txn),
      validateTxns j true id ts = .ok ts' →
      ts'.length = ts.length ∧
        ∀ t' ∈ ts', t'.txnid = 0 ∨ (id ≤ t'.txnid ∧ t'.txnid < id + ts.length) := by
  intro ts
  induction ts with
  | nil =>
    intro id ts' h
    rw [validateTxns] at h
    cases h
    exact ⟨rfl, by simp⟩
  | cons t rest ih =>
    intro id ts' h
    rw [validateTxns] at h
    split at h
    · exact absurd h (by simp)
    · rename_i t' ht'
      split at h
      · exact absurd h (by simp)
      · rename_i ts₀ hts₀
        cases h
        obtain ⟨hlen, hmem⟩ := ih (id + 1) ts₀ hts₀
        refine ⟨by simp [hlen], ?_⟩
        intro x hx
        rcases List.mem_cons.1 hx with rfl | hx
        · rcases validateTxn_txnid ht' with h | h
          · refine Or.inr ⟨le_of_eq h.symm, ?_⟩
            rw [h]
            simp only [List.length_cons]
            omega
          · exact Or.inl h
        · rcases hmem x hx with h | h
          · exact Or.inl h
          · refine Or.inr ⟨by omega, by simp at h ⊢; omega⟩

theorem commitFold_txns_dict (P : Int × Txn → Prop) :
    ∀ (ts : List Txn) (jj : Journal),
      (∀ kv ∈ jj.txns_dict, P kv) → (∀ t ∈ ts, P (t.txnid, t)) →
      (∀ kv ∈ (ts.foldl
        (fun jj t =>
          { jj with
            txns_dict := alistInsert jj.txns_dict t.txnid t,
            postings := jj.postings ++ t.postings })
        jj).txns_dict, P kv) ∧
      (ts.foldl
        (fun jj t =>
          { jj with
            txns_dict := alistInsert jj.txns_dict t.txnid t,
            postings := jj.postings ++ t.postings })
        jj).next_txn_id = jj.next_txn_id := by
  intro ts
  induction ts with
  | nil => intro jj hd _; exact ⟨hd, rfl⟩
  | cons t rest ih =>
    intro jj hd hts
    rw [List.foldl_cons]
    refine ih _ ?_ (fun x hx => hts x (List.mem_cons_of_mem _ hx))
    intro kv hkv
    rcases mem_alistInsert hkv with h | h
    · exact hd kv h
    · exact h ▸ hts t (List.mem_cons_self _ _)

theorem add_txns_nextIdInv {j : Journal} {txns : List Txn} {ig : Bool}
    (hInv : NextIdInv j) : NextIdInv (j.add_txns txns ig).1 := by
  obtain ⟨hpos, hmem⟩ := hInv
  rcases hr : j.add_txns txns ig with ⟨j', e⟩
  rw [Journal.add_txns] at hr
  split at hr
  · cases hr
    exact ⟨hpos, hmem⟩
  · rename_i ts hts
    split at hr
    · rename_i hig
      subst hig
      cases hr
      obtain ⟨hlen, hids⟩ := validateTxns_true_ids txns j.next_txn_id ts hts
      have h := commitFold_txns_dict
        (fun kv => kv.1 < j.next_txn_id + txns.length ∧
          kv.2.txnid < j.next_txn_id + txns.length) ts j
        (fun kv hkv => by
          obtain ⟨h1, h2⟩ := hmem kv hkv
          constructor <;> omega)
        (fun t ht => by
          rcases hids t ht with h | h
          · simp [h]; omega
          · simp; omega)
      refine ⟨by simp; omega, ?_⟩
      intro kv hkv
      exact h.1 kv hkv
    · cases hr
      have h := commitFold_txns_dict
        (fun kv => kv.1 < max (listMaxD (ts.map Txn.txnid) 0 + 1) j.next_txn_id ∧
          kv.2.txnid < max (listMaxD (ts.map Txn.txnid) 0 + 1) j.next_txn_id) ts j
        (fun kv hkv => by
          obtain ⟨h1, h2⟩ := hmem kv hkv
          have := le_max_right (listMaxD (ts.map Txn.txnid) 0 + 1) j.next_txn_id
          constructor <;> omega)
        (fun t ht => by
          have hle := listMaxD_ge 0 (List.mem_map_of_mem Txn.txnid ht)
          have := le_max_left (listMaxD (ts.map Txn.txnid) 0 + 1) j.next_txn_id
          constructor <;> simp <;> omega)
      refine ⟨?_, fun kv hkv => h.1 kv hkv⟩
      have := le_max_right (listMaxD (ts.map Txn.txnid) 0 + 1) j.next_txn_id
      simp
      omega

theorem addOneAccount_nextId :
    ∀ (n : Nat) (a : Account), a.qname.length ≤ n → ∀ (j : Journal),
      (j.addOneAccount a).1.txns_dict = j.txns_dict ∧
        (j.addOneAccount a).1.next_txn_id = j.next_txn_id := by
  intro n
  induction n with
  | zero =>
    intro a ha j
    rw [Journal.addOneAccount]
    split
    · exact ⟨rfl, rfl⟩
    · split
      · split
        · exact ⟨rfl, rfl⟩
        · split
          · rename_i par hpar _ _
            exfalso
            rw [qnameParent] at hpar
            split at hpar
            · simp at hpar
            · omega
          · exact ⟨rfl, rfl⟩
      · exact ⟨rfl, rfl⟩
  | succ n ih =>
    intro a ha j
    rw [Journal.addOneAccount]
    split
    · exact ⟨rfl, rfl⟩
    · split
      · split
        · exact ⟨rfl, rfl⟩
        · split
          · rename_i par hpar _ _
            have hparlen : par.length ≤ n := by
              rw [qnameParent] at hpar
              split at hpar
              · simp at hpar
              · simp only [Option.some.injEq] at hpar
                subst hpar
                simp only [List.length_dropLast]
                omega
            rcases hone : j.addOneAccount ⟨par, []⟩ with ⟨j₁, e₁⟩
            have hih := ih ⟨par, []⟩ hparlen j
            rw [hone] at hih
            cases e₁ with
            | some err => simpa [hone] using hih
            | none => simpa [hone, Journal.commitAccount] using hih
          · exact ⟨rfl, rfl⟩
      · exact ⟨rfl, rfl⟩

theorem add_accounts_nextIdInv :
    ∀ (accs : List Account) (j : Journal),
      NextIdInv j → NextIdInv (j.add_accounts accs).1 := by
  intro accs
  induction accs with
  | nil => intro j h; exact h
  | cons a rest ih =>
    intro j h
    rw [Journal.add_accounts]
    rcases hone : j.addOneAccount a with ⟨j₁, e₁⟩
    have hpres := addOneAccount_nextId a.qname.length a (le_refl _) j
    rw [hone] at hpres
    have h₁ : NextIdInv j₁ := by
      obtain ⟨hp, hm⟩ := h
      exact ⟨hpres.2 ▸ hp, fun kv hkv => hpres.2 ▸ hm kv (hpres.1 ▸ hkv)⟩
    cases e₁ with
    | some err => exact h₁
    | none => exact ih j₁ h₁

theorem addBAssertionsGo_nextId :
    ∀ (bs acc : List BAssertion) (j : Journal) (r : Journal × Option String),
      j.addBAssertionsGo bs acc = r →
      r.1.txns_dict = j.txns_dict ∧ r.1.next_txn_id = j.next_txn_id := by
  intro bs
  induction bs with
  | nil =>
    intro acc j r hr
    rw [Journal.addBAssertionsGo] at hr
    subst hr
    exact ⟨rfl, rfl⟩
  | cons b rest ih =>
    intro acc j r hr
    rw [Journal.addBAssertionsGo] at hr
    split at hr
    · subst hr; exact ⟨rfl, rfl⟩
    · split at hr
      · subst hr; exact ⟨rfl, rfl⟩
      · rename_i fq _
        split at hr
        · subst hr; exact ⟨rfl, rfl⟩
        · exact ih (acc ++ [{ b with acc_qname := fq }])
            { j with bassertions_set := j.bassertions_set ++ [(b.date, fq)] } r hr

theorem budgetGo_id_le {sd ed : Int} {cp : QName} :
    ∀ (ts : List RPosting) (id : Int) (res : List Txn × Int),
      budgetGo sd ed cp ts id = .ok res → id ≤ res.2 := by
  intro ts
  induction ts with
  | nil =>
    intro id res h
    rw [budgetGo] at h
    cases h
    exact le_refl _
  | cons t rest ih =>
    intro id res h
    rw [budgetGo] at h
    cases hbp : budgetPairs cp (t.postings_between sd ed id) with
    | error e => rw [hbp] at h; exact absurd h (by simp)
    | ok pairs =>
      rw [hbp] at h
      cases hbg : budgetGo sd ed cp rest (id + (t.postings_between sd ed id).length) with
      | error e =>
        rw [hbg] at h
        exact absurd h (by simp)
      | ok pr =>
        obtain ⟨r', idF⟩ := pr
        rw [hbg] at h
        injection h with h
        subst h
        have := ih (id + (t.postings_between sd ed id).length) (r', idF) hbg
        simp at this ⊢
        omega

theorem adjustInner_nextIdInv {child counterpart : QName} {force : Bool}
    {comment : Option String} :
    ∀ (bs : List BAssertion) (j : Journal) (acc : List Txn)
      (r : (Except String (List Txn)) × Journal),
      adjustInner child counterpart force comment j bs acc = r →
      NextIdInv j → NextIdInv r.2 := by
  intro bs
  induction bs with
  | nil =>
    intro j acc r hr h
    rw [adjustInner] at hr
    subst hr
    exact h
  | cons b rest ih =>
    intro j acc r hr h
    rw [adjustInner] at hr
    split at hr
    · subst hr; exact h
    · split at hr
      · exact ih j acc r hr h
      · split at hr
        · subst hr; exact h
        · rename_i t _
          rcases hadd : j.add_txns [t] false with ⟨j₁, e₁⟩
          have h₁ : NextIdInv j₁ := by
            have := @add_txns_nextIdInv j [t] false h
            rwa [hadd] at this
          rw [hadd] at hr
          cases e₁ with
          | some err =>
            simp at hr
            subst hr
            exact h₁
          | none =>
            simp at hr
            exact ih j₁ (acc ++ [t]) r hr h₁

theorem adjustOuter_nextIdInv {force : Bool} {comment : Option String} :
    ∀ (triples : List (QName × QName × Option QName)) (j : Journal)
      (acc : List Txn) (r : (Except String (List Txn)) × Journal),
      adjustOuter force comment j triples acc = r →
      NextIdInv j → NextIdInv r.2 := by
  intro triples
  induction triples with
  | nil =>
    intro j acc r hr h
    rw [adjustOuter] at hr
    subst hr
    exact h
  | cons tr rest ih =>
    obtain ⟨a, cp, child⟩ := tr
    intro j acc r hr h
    rw [adjustOuter] at hr
    split at hr
    · subst hr; exact h
    · split at hr
      · subst hr; exact h
      · split at hr
        · subst hr; exact h
        · rename_i child' _
          split at hr
          · subst hr; exact h
          · rename_i bs _
            rcases hinner : adjustInner child' _ force comment j bs acc
              with ⟨res₁, j₁⟩
            have h₁ : NextIdInv j₁ := by
              have := adjustInner_nextIdInv bs j acc (res₁, j₁) hinner h
              exact this
            rw [hinner] at hr
            cases res₁ with
            | error e =>
              simp at hr
              subst hr
              exact h₁
            | ok acc' =>
              simp at hr
              exact ih j₁ acc' r hr h₁

/-- Claim C9: in every journal state reachable from the empty journal
through the public mutators, the next-transaction-id counter is positive
and strictly greater than the id of every stored transaction (both the
dict key and the transaction's own id), so add_txns assigning ids from the
counter can never collide with an existing transaction. -/
theorem reach_nextIdInv (j : Journal) (h : Reach j) : NextIdInv j := by
  induction h with
  | empty e1 ac => exact ⟨by simp, by simp⟩
  | add_accounts accs _ ih => exact add_accounts_nextIdInv accs _ ih
  | add_txns txns ig _ ih => exact add_txns_nextIdInv ih
  | add_bassertions bs _ ih =>
    rename_i j₀ _
    obtain ⟨hd, he⟩ := addBAssertionsGo_nextId bs [] j₀ _ rfl
    obtain ⟨hp, hm⟩ := ih
    exact ⟨he ▸ hp, fun kv hkv => he ▸ hm kv (hd ▸ hkv)⟩
  | add_targets ts _ ih =>
    rename_i j₀ _
    rcases hr : j₀.add_targets ts with ⟨j₁, e₁⟩
    rw [Journal.add_targets] at hr
    split at hr
    · cases hr
      exact ih
    · cases hr
      exact ih
  | budget_txns sd ed cp _ ih =>
    rename_i j₀ _
    rcases hr : j₀.budget_txns sd ed cp with ⟨res, j₁⟩
    rw [Journal.budget_txns] at hr
    cases hbg : budgetGo sd ed cp j₀.targets j₀.next_txn_id with
    | error e =>
      rw [hbg] at hr
      cases hr
      exact ih
    | ok pr =>
      obtain ⟨txs, idF⟩ := pr
      rw [hbg] at hr
      cases hr
      obtain ⟨hpos, hm⟩ := ih
      have hle := budgetGo_id_le j₀.targets j₀.next_txn_id (txs, idF) hbg
      simp only at hle
      refine ⟨?_, ?_⟩
      · show (1 : Int) ≤ idF
        omega
      · intro kv hkv
        obtain ⟨h1, h2⟩ := hm kv hkv
        show kv.1 < idF ∧ kv.2.txnid < idF
        omega
  | adjust_for_bassertions accounts counterparts children force comment _ ih =>
    rename_i j₀ _
    rw [Journal.adjust_for_bassertions]
    split
    · exact ih
    · exact adjustOuter_nextIdInv _ j₀ [] _ rfl ih
  | import_bank_csv confQ candidates classifier onlyAfter _ ih =>
    rename_i j₀ _
    rcases hr : import_bank_csv j₀ confQ candidates classifier onlyAfter
      with ⟨res, j₁⟩
    rw [import_bank_csv] at hr
    split at hr
    · cases hr
      exact ih
    · rename_i fq _
      rcases hadd : j₀.add_txns
        (classifyAll classifier (bankNewPs j₀ fq candidates onlyAfter)) true
        with ⟨j₂, e₂⟩
      rw [hadd] at hr
      have h₂ : NextIdInv j₂ := by
        have := @add_txns_nextIdInv j₀
          (classifyAll classifier (bankNewPs j₀ fq candidates onlyAfter)) true ih
        rwa [hadd] at this
      cases e₂ with
      | some err =>
        cases hr
        exact h₂
      | none =>
        cases hr
        exact h₂

theorem reach_nextIdInv_witness :
    NextIdInv (((Journal.add_accounts { } [⟨["A"], []⟩, ⟨["A", "B"], []⟩]).1.add_txns
      [⟨[{ txnid := 1, date := 0, acc_qname := ["A", "B"], amount := 5, stmt_date := 0 },
        { txnid := 1, date := 0, acc_qname := ["A", "B"], amount := -5,
          stmt_date := 0 }]⟩] true).1) :=
  reach_nextIdInv _ (Reach.add_txns _ _ (Reach.add_accounts _ (Reach.empty false false)))

theorem alistLookup_eq_none_iff {α β : Type} [DecidableEq α]
    {d : List (α × β)} {k : α} :
    alistLookup d k = none ↔ k ∉ d.map (·.1) := by
  induction d with
  | nil => simp [alistLookup]
  | cons kv rest ih =>
    obtain ⟨k₀, v₀⟩ := kv
    by_cases h : k₀ = k
    · subst h
      simp [alistLookup]
    · rw [alistLookup, if_neg h, ih]
      simp only [List.map_cons, List.mem_cons, not_or]
      constructor
      · intro hn
        exact ⟨fun hh => h hh.symm, hn⟩
      · intro hn
        exact hn.2

theorem alistLookup_remove_other {α β : Type} [DecidableEq α]
    (d : List (α × β)) (k k' : α) (h : k' ≠ k) :
    alistLookup (alistRemove d k) k' = alistLookup d k' := by
  induction d with
  | nil => simp [alistRemove]
  | cons kv rest ih =>
    obtain ⟨k₀, v₀⟩ := kv
    by_cases h0 : k₀ = k
    · subst h0
      rw [alistRemove, if_pos rfl, alistLookup, if_neg (fun hh => h hh.symm)]
    · rw [alistRemove, if_neg h0]
      by_cases h1 : k₀ = k'
      · subst h1
        rw [alistLookup, if_pos rfl, alistLookup, if_pos rfl]
      · rw [alistLookup, if_neg h1, alistLookup, if_neg h1, ih]

theorem alistLookup_remove_self {α β : Type} [DecidableEq α]
    (d : List (α × β)) (k : α) (h : KeysNodup d) :
    alistLookup (alistRemove d k) k = none := by
  induction d with
  | nil => simp [alistRemove, alistLookup]
  | cons kv rest ih =>
    obtain ⟨k₀, v₀⟩ := kv
    rw [KeysNodup, List.map_cons, List.nodup_cons] at h
    by_cases h0 : k₀ = k
    · subst h0
      rw [alistRemove, if_pos rfl]
      exact alistLookup_eq_none_iff.2 h.1
    · rw [alistRemove, if_neg h0, alistLookup, if_neg h0]
      exact ih h.2

theorem alistRemove_sublist {α β : Type} [DecidableEq α]
    (d : List (α × β)) (k : α) : (alistRemove d k).Sublist d := by
  induction d with
  | nil => simp [alistRemove]
  | cons kv rest ih =>
    obtain ⟨k₀, v₀⟩ := kv
    rw [alistRemove]
    by_cases h0 : k₀ = k
    · rw [if_pos h0]
      exact List.sublist_cons_self _ _
    · rw [if_neg h0]
      exact ih.cons₂ _

theorem keysNodup_remove {α β : Type} [DecidableEq α]
    {d : List (α × β)} (k : α) (h : KeysNodup d) : KeysNodup (alistRemove d k) :=
  h.sublist ((alistRemove_sublist d k).map (·.1))

theorem alistInsert_keys {α β : Type} [DecidableEq α]
    (d : List (α × β)) (k : α) (v : β) :
    (alistInsert d k v).map (·.1) =
      if (alistLookup d k).isSome then d.map (·.1) else d.map (·.1) ++ [k] := by
  induction d with
  | nil => simp [alistInsert, alistLookup]
  | cons kv rest ih =>
    obtain ⟨k₀, v₀⟩ := kv
    by_cases h0 : k₀ = k
    · subst h0
      simp [alistInsert, alistLookup]
    · rw [alistInsert, if_neg h0, List.map_cons, List.map_cons, ih,
        alistLookup, if_neg h0]
      by_cases hl : (alistLookup rest k).isSome
      · rw [if_pos hl, if_pos hl]
      · rw [if_neg hl, if_neg hl]
        simp

theorem keysNodup_insert {α β : Type} [DecidableEq α]
    {d : List (α × β)} (k : α) (v : β) (h : KeysNodup d) :
    KeysNodup (alistInsert d k v) := by
  rw [KeysNodup, alistInsert_keys]
  by_cases hl : (alistLookup d k).isSome
  · rw [if_pos hl]
    exact h
  · rw [if_neg hl]
    have hk : k ∉ d.map (·.1) :=
      alistLookup_eq_none_iff.1 (Option.not_isSome_iff_eq_none.1 hl)
    refine List.Nodup.append h (List.nodup_singleton k) ?_
    intro a ha hak
    simp at hak
    exact hk (hak ▸ ha)

theorem countWF_countInc {d : List ((Int × Amount × Option String) × Int)}
    (k : Int × Amount × Option String) (h : CountWF d) : CountWF (countInc d k) := by
  intro k' c hc
  rw [countInc, alistLookup_insert] at hc
  by_cases hk : k = k'
  · rw [if_pos hk] at hc
    cases hc
    cases hl : alistLookup d k with
    | none => simp [hl]
    | some w =>
      have := h k w hl
      simp [hl]
      omega
  · rw [if_neg hk] at hc
    exact h k' c hc

theorem countInc_lookupCount (d : List ((Int × Amount × Option String) × Int))
    (k k' : Int × Amount × Option String) :
    lookupCount (countInc d k) k' =
      lookupCount d k' + (if k = k' then 1 else 0) := by
  rw [countInc, lookupCount, alistLookup_insert]
  by_cases hk : k = k'
  · rw [if_pos hk, if_pos hk, hk]
    simp [lookupCount]
  · rw [if_neg hk, if_neg hk, lookupCount]
    simp

theorem keysNodup_countInc {d : List ((Int × Amount × Option String) × Int)}
    (k : Int × Amount × Option String) (h : KeysNodup d) : KeysNodup (countInc d k) :=
  keysNodup_insert _ _ h

theorem buildDedupGo_props (ps : List Posting) :
    ∀ (d : List ((Int × Amount × Option String) × Int)),
      KeysNodup d → CountWF d →
      KeysNodup (ps.foldl (fun d p => countInc d p.dedupKeyOf) d) ∧
      CountWF (ps.foldl (fun d p => countInc d p.dedupKeyOf) d) ∧
      ∀ k, lookupCount (ps.foldl (fun d p => countInc d p.dedupKeyOf) d) k =
        lookupCount d k + (ps.countP (fun p => p.dedupKeyOf == k) : Int) := by
  induction ps with
  | nil =>
    intro d h1 h2
    exact ⟨h1, h2, fun k => by simp⟩
  | cons p rest ih =>
    intro d h1 h2
    rw [List.foldl_cons]
    obtain ⟨g1, g2, g3⟩ := ih (countInc d p.dedupKeyOf)
      (keysNodup_countInc _ h1) (countWF_countInc _ h2)
    refine ⟨g1, g2, ?_⟩
    intro k
    rw [g3 k, countInc_lookupCount]
    rw [List.countP_cons]
    by_cases hk : p.dedupKeyOf = k
    · rw [if_pos hk, if_pos (by simp [hk])]
      push_cast
      ring
    · rw [if_neg hk, if_neg (by simp [hk])]
      push_cast
      ring

theorem buildDedup_props (ps : List Posting) :
    KeysNodup (buildDedup ps) ∧ CountWF (buildDedup ps) ∧
      ∀ k, lookupCount (buildDedup ps) k =
        (ps.countP (fun p => p.dedupKeyOf == k) : Int) := by
  obtain ⟨h1, h2, h3⟩ := buildDedupGo_props ps [] (by simp [KeysNodup]) (by
    intro k c hc
    simp [alistLookup] at hc)
  refine ⟨h1, h2, fun k => ?_⟩
  rw [buildDedup] at *
  rw [h3 k]
  simp [lookupCount, alistLookup]

theorem lookupCount_nonneg {d : List ((Int × Amount × Option String) × Int)}
    (h : CountWF d) (k : Int × Amount × Option String) : 0 ≤ lookupCount d k := by
  rw [lookupCount]
  cases hl : alistLookup d k with
  | none => simp
  | some c =>
    have := h k c hl
    simp
    omega

theorem dedup_step_count {d : List ((Int × Amount × Option String) × Int)}
    (hnodup : KeysNodup d) {key : Int × Amount × Option String} {c : Int}
    (hl : alistLookup d key = some c) (k : Int × Amount × Option String) :
    lookupCount (if c - 1 = 0 then alistRemove d key else alistInsert d key (c - 1)) k =
      lookupCount d k - (if key = k then 1 else 0) := by
  by_cases hc : c - 1 = 0
  · rw [if_pos hc]
    by_cases hk : key = k
    · subst hk
      rw [if_pos rfl, lookupCount, alistLookup_remove_self d key hnodup]
      rw [lookupCount, hl]
      simp
      omega
    · rw [if_neg hk, lookupCount, alistLookup_remove_other d key k
        (fun hh => hk hh.symm), lookupCount]
      simp
  · rw [if_neg hc]
    by_cases hk : key = k
    · subst hk
      rw [lookupCount, alistLookup_insert, if_pos rfl, lookupCount, hl]
      simp
    · rw [lookupCount, alistLookup_insert, if_neg hk, lookupCount, if_neg hk]
      omega

theorem dedup_step_nodup {d : List ((Int × Amount × Option String) × Int)}
    (hnodup : KeysNodup d) (key : Int × Amount × Option String) (c : Int) :
    KeysNodup (if c - 1 = 0 then alistRemove d key else alistInsert d key (c - 1)) := by
  by_cases hc : c - 1 = 0
  · rw [if_pos hc]
    exact keysNodup_remove key hnodup
  · rw [if_neg hc]
    exact keysNodup_insert key (c - 1) hnodup

theorem dedup_step_WF {d : List ((Int × Amount × Option String) × Int)}
    (hWF : CountWF d) (hnodup : KeysNodup d) {key : Int × Amount × Option String}
    {c : Int} (hl : alistLookup d key = some c) :
    CountWF (if c - 1 = 0 then alistRemove d key else alistInsert d key (c - 1)) := by
  have hc1 : 1 ≤ c := hWF key c hl
  by_cases hc : c - 1 = 0
  · rw [if_pos hc]
    intro k' c' hc'
    by_cases hk : k' = key
    · subst hk
      rw [alistLookup_remove_self d k' hnodup] at hc'
      exact absurd hc' (by simp)
    · rw [alistLookup_remove_other d key k' hk] at hc'
      exact hWF k' c' hc'
  · rw [if_neg hc]
    intro k' c' hc'
    rw [alistLookup_insert] at hc'
    by_cases hk : key = k'
    · rw [if_pos hk] at hc'
      cases hc'
      omega
    · rw [if_neg hk] at hc'
      exact hWF k' c' hc'

theorem filterNew_eq_nil (oa : Option Int) :
    ∀ (cs : List Posting) (d : List ((Int × Amount × Option String) × Int)),
      KeysNodup d →
      (∀ k, ((cs.countP (fun p => !skipCond oa p && (p.dedupKeyOf == k))) : Int) ≤
        lookupCount d k) →
      filterNew oa cs d = [] := by
  intro cs
  induction cs with
  | nil => intro d _ _; rw [filterNew]
  | cons p rest ih =>
    intro d hnodup hcount
    rw [filterNew]
    by_cases hskip : skipCond oa p
    · rw [if_pos hskip]
      refine ih d hnodup ?_
      intro k
      have h := hcount k
      rw [List.countP_cons, if_neg (by simp [hskip])] at h
      simpa using h
    · rw [if_neg hskip]
      have hone : (1 : Int) ≤ lookupCount d p.dedupKeyOf := by
        have h := hcount p.dedupKeyOf
        rw [List.countP_cons, if_pos (by simp [hskip])] at h
        have : (0 : Int) ≤ (rest.countP
          (fun q => !skipCond oa q && (q.dedupKeyOf == p.dedupKeyOf)) : Int) := by
          positivity
        omega
      cases hl : alistLookup d p.dedupKeyOf with
      | none =>
        rw [lookupCount, hl] at hone
        simp at hone
      | some c =>
        refine ih _ (dedup_step_nodup hnodup _ _) ?_
        intro k
        rw [dedup_step_count hnodup hl k]
        have h := hcount k
        rw [List.countP_cons] at h
        by_cases hk : p.dedupKeyOf = k
        · rw [if_pos (by simp [hskip, hk])] at h
          rw [if_pos hk]
          push_cast at h ⊢
          omega
        · rw [if_neg (by simp [hk])] at h
          rw [if_neg hk]
          push_cast at h ⊢
          omega

theorem filterNew_count (oa : Option Int) :
    ∀ (cs : List Posting) (d : List ((Int × Amount × Option String) × Int)),
      KeysNodup d → CountWF d →
      ∀ k, ((cs.countP (fun p => !skipCond oa p && (p.dedupKeyOf == k))) : Int) ≤
        lookupCount d k +
          ((filterNew oa cs d).countP (fun p => p.dedupKeyOf == k) : Int) := by
  intro cs
  induction cs with
  | nil =>
    intro d hnodup hWF k
    rw [filterNew]
    simp
    exact lookupCount_nonneg hWF k
  | cons p rest ih =>
    intro d hnodup hWF k
    rw [filterNew]
    by_cases hskip : skipCond oa p
    · rw [if_pos hskip, List.countP_cons, if_neg (by simp [hskip])]
      simpa using ih d hnodup hWF k
    · rw [if_neg hskip]
      cases hl : alistLookup d p.dedupKeyOf with
      | none =>
        have h := ih d hnodup hWF k
        rw [List.countP_cons, List.countP_cons]
        by_cases hk : p.dedupKeyOf = k
        · rw [if_pos (by simp [hskip, hk]), if_pos (by simp [hk])]
          push_cast at h ⊢
          omega
        · rw [if_neg (by simp [hk]), if_neg (by simp [hk])]
          push_cast at h ⊢
          omega
      | some c =>
        have h := ih _ (dedup_step_nodup hnodup _ _) (dedup_step_WF hWF hnodup hl) k
        rw [dedup_step_count hnodup hl k] at h
        rw [List.countP_cons]
        by_cases hk : p.dedupKeyOf = k
        · rw [if_pos (by simp [hskip, hk])]
          rw [if_pos hk] at h
          push_cast at h ⊢
          omega
        · rw [if_neg (by simp [hk])]
          rw [if_neg hk] at h
          push_cast at h ⊢
          omega

theorem filterNew_mem {oa : Option Int} :
    ∀ {cs : List Posting} {d : List ((Int × Amount × Option String) × Int)}
      {q : Posting}, q ∈ filterNew oa cs d → q ∈ cs := by
  intro cs
  induction cs with
  | nil =>
    intro d q h
    rw [filterNew] at h
    simp at h
  | cons p rest ih =>
    intro d q h
    rw [filterNew] at h
    by_cases hskip : skipCond oa p
    · rw [if_pos hskip] at h
      exact List.mem_cons_of_mem _ (ih h)
    · rw [if_neg hskip] at h
      cases hl : alistLookup d p.dedupKeyOf with
      | none =>
        rw [hl] at h
        rcases List.mem_cons.1 h with rfl | h
        · exact List.mem_cons_self _ _
        · exact List.mem_cons_of_mem _ (ih h)
      | some c =>
        rw [hl] at h
        exact List.mem_cons_of_mem _ (ih h)

theorem stampPostings_mem_acc {fq : QName} :
    ∀ {cs : List Posting} {id : Int} {p : Posting},
      p ∈ stampPostings fq id cs → p.acc_qname = fq := by
  intro cs
  induction cs with
  | nil =>
    intro id p h
    rw [stampPostings] at h
    simp at h
  | cons c rest ih =>
    intro id p h
    rw [stampPostings] at h
    rcases List.mem_cons.1 h with rfl | h
    · rfl
    · exact ih h

theorem stampPostings_countP (fq : QName)
    (g : Int → Amount → Option String → Bool) :
    ∀ (cs : List Posting) (id id' : Int),
      (stampPostings fq id cs).countP (fun p => g p.date p.amount p.stmt_desc) =
        (stampPostings fq id' cs).countP (fun p => g p.date p.amount p.stmt_desc) := by
  intro cs
  induction cs with
  | nil => intro id id'; rw [stampPostings, stampPostings]
  | cons c rest ih =>
    intro id id'
    rw [stampPostings, stampPostings, List.countP_cons, List.countP_cons, ih (id + 1) (id' + 1)]

theorem classifyAll_eq_flatMap (F : Posting → List Txn) :
    ∀ (ps : List Posting) (acc : List Txn),
      ps.foldl (fun acc p => match F p with | [] => acc | ts => acc ++ ts) acc =
        acc ++ ps.flatMap F := by
  intro ps
  induction ps with
  | nil => intro acc; simp
  | cons p rest ih =>
    intro acc
    rw [List.foldl_cons]
    cases hF : F p with
    | nil =>
      rw [ih]
      simp [hF]
    | cons t ts =>
      rw [ih]
      simp [hF]

theorem rewritePosting_rel {j : Journal} {ig : Bool} {id : Int} {p p' : Posting}
    (h : rewritePosting j ig id p = .ok p') :
    p'.date = p.date ∧ p'.amount = p.amount ∧ p'.stmt_desc = p.stmt_desc ∧
      j.full_qname p.acc_qname = .ok p'.acc_qname := by
  rw [rewritePosting] at h
  repeat' split at h
  all_goals first
    | (injection h with h
       subst h
       cases ig <;> simp_all)
    | injection h

theorem rewritePostings_rel {j : Journal} {ig : Bool} {id : Int} :
    ∀ {ps ps' : List Posting}, rewritePostings j ig id ps = .ok ps' →
      List.Forall₂ (fun p p' : Posting => p'.date = p.date ∧ p'.amount = p.amount ∧
        p'.stmt_desc = p.stmt_desc ∧ j.full_qname p.acc_qname = .ok p'.acc_qname)
        ps ps' := by
  intro ps
  induction ps with
  | nil =>
    intro ps' h
    rw [rewritePostings] at h
    cases h
    exact List.Forall₂.nil
  | cons p rest ih =>
    intro ps' h
    rw [rewritePostings] at h
    split at h
    · exact absurd h (by simp)
    · rename_i p' hp'
      split at h
      · exact absurd h (by simp)
      · rename_i ps₀ hps₀
        cases h
        exact List.Forall₂.cons (rewritePosting_rel hp') (ih hps₀)

theorem validateTxn_rel {j : Journal} {id : Int} {t t' : Txn}
    (h : validateTxn j true id t = .ok t') :
    List.Forall₂ (fun p p' : Posting => p'.date = p.date ∧ p'.amount = p.amount ∧
      p'.stmt_desc = p.stmt_desc ∧ j.full_qname p.acc_qname = .ok p'.acc_qname)
      t.postings t'.postings := by
  rw [validateTxn] at h
  split at h
  · exact absurd h (by simp)
  · split at h
    · exact absurd h (by simp)
    · rename_i ps hps
      cases h
      exact rewritePostings_rel hps

theorem validateTxns_rel {j : Journal} :
    ∀ {ts : List Txn} {id : Int} {ts' : List Txn},
      validateTxns j true id ts = .ok ts' →
      List.Forall₂ (fun t t' : Txn =>
        List.Forall₂ (fun p p' : Posting => p'.date = p.date ∧ p'.amount = p.amount ∧
          p'.stmt_desc = p.stmt_desc ∧ j.full_qname p.acc_qname = .ok p'.acc_qname)
          t.postings t'.postings) ts ts' := by
  intro ts
  induction ts with
  | nil =>
    intro id ts' h
    rw [validateTxns] at h
    cases h
    exact List.Forall₂.nil
  | cons t rest ih =>
    intro id ts' h
    rw [validateTxns] at h
    split at h
    · exact absurd h (by simp)
    · rename_i t' ht'
      split at h
      · exact absurd h (by simp)
      · rename_i ts₀ hts₀
        cases h
        exact List.Forall₂.cons (validateTxn_rel ht') (ih hts₀)

theorem countP_le_forall₂ {α β : Type} {R : α → β → Prop} {pa : α → Bool}
    {pb : β → Bool} (himp : ∀ a b, R a b → pa a → pb b) :
    ∀ {l : List α} {l' : List β}, List.Forall₂ R l l' →
      l.countP pa ≤ l'.countP pb := by
  intro l l' h
  induction h with
  | nil => simp
  | cons hab htail ih =>
    rename_i a b l₁ l₂
    rw [List.countP_cons, List.countP_cons]
    by_cases hpa : pa a
    · rw [if_pos hpa, if_pos (himp a b hab hpa)]
      omega
    · rw [if_neg hpa]
      by_cases hpb : pb b
      · rw [if_pos hpb]
        omega
      · rw [if_neg hpb]
        omega

theorem flat_countP_le {j : Journal} {pa : Posting → Bool} {pb : Posting → Bool}
    (himp : ∀ (a b : Posting),
      (b.date = a.date ∧ b.amount = a.amount ∧ b.stmt_desc = a.stmt_desc ∧
        j.full_qname a.acc_qname = .ok b.acc_qname) → pa a → pb b) :
    ∀ {ts ts' : List Txn},
      List.Forall₂ (fun t t' : Txn =>
        List.Forall₂ (fun p p' : Posting => p'.date = p.date ∧ p'.amount = p.amount ∧
          p'.stmt_desc = p.stmt_desc ∧ j.full_qname p.acc_qname = .ok p'.acc_qname)
          t.postings t'.postings) ts ts' →
      (ts.flatMap (·.postings)).countP pa ≤ (ts'.flatMap (·.postings)).countP pb := by
  intro ts ts' h
  induction h with
  | nil => simp
  | cons hab htail ih =>
    rename_i a b l₁ l₂
    rw [List.flatMap_cons, List.flatMap_cons, List.countP_append, List.countP_append]
    have := countP_le_forall₂ himp hab
    omega

theorem commitFold_state :
    ∀ (ts : List Txn) (jj : Journal),
      (ts.foldl
        (fun jj t =>
          { jj with
            txns_dict := alistInsert jj.txns_dict t.txnid t,
            postings := jj.postings ++ t.postings })
        jj).postings = jj.postings ++ ts.flatMap (·.postings) ∧
      (ts.foldl
        (fun jj t =>
          { jj with
            txns_dict := alistInsert jj.txns_dict t.txnid t,
            postings := jj.postings ++ t.postings })
        jj).full_qname_dict = jj.full_qname_dict ∧
      (ts.foldl
        (fun jj t =>
          { jj with
            txns_dict := alistInsert jj.txns_dict t.txnid t,
            postings := jj.postings ++ t.postings })
        jj).short_qname_dict = jj.short_qname_dict := by
  intro ts
  induction ts with
  | nil =>
    intro jj
    simp
  | cons t rest ih =>
    intro jj
    rw [List.foldl_cons]
    obtain ⟨h1, h2, h3⟩ := ih
      { jj with
        txns_dict := alistInsert jj.txns_dict t.txnid t,
        postings := jj.postings ++ t.postings }
    refine ⟨?_, h2, h3⟩
    rw [h1]
    simp

theorem add_txns_ok_spec {j : Journal} {txns : List Txn} {j' : Journal}
    (h : j.add_txns txns true = (j', none)) :
    ∃ ts, validateTxns j true j.next_txn_id txns = .ok ts ∧
      j'.postings = j.postings ++ ts.flatMap (·.postings) ∧
      j'.full_qname_dict = j.full_qname_dict ∧
      j'.short_qname_dict = j.short_qname_dict := by
  rw [Journal.add_txns] at h
  split at h
  · simp at h
  · rename_i ts hts
    rw [if_pos rfl] at h
    cases h
    obtain ⟨h1, h2, h3⟩ := commitFold_state ts j
    exact ⟨ts, hts, h1, h2, h3⟩

theorem classifyAll_eq (F : Posting → List Txn) (ps : List Posting) :
    classifyAll F ps = ps.flatMap F := by
  rw [classifyAll, classifyAll_eq_flatMap, List.nil_append]

theorem countP_le_flatMap {α β : Type} (P : α → Bool) (Q : β → Bool)
    (B : α → List β) :
    ∀ (l : List α), (∀ p ∈ l, P p = true → ∃ q ∈ B p, Q q = true) →
      l.countP P ≤ (l.flatMap B).countP Q := by
  intro l
  induction l with
  | nil => intro _; simp
  | cons p rest ih =>
    intro h
    rw [List.countP_cons, List.flatMap_cons, List.countP_append]
    have hrest := ih (fun q hq hP => h q (List.mem_cons_of_mem p hq) hP)
    by_cases hP : P p
    · rw [if_pos hP]
      obtain ⟨q, hqB, hQ⟩ := h p (List.mem_cons_self p rest) hP
      have hpos : 0 < (B p).countP Q := List.countP_pos_iff.mpr ⟨q, hqB, hQ⟩
      omega
    · rw [if_neg hP]
      omega

theorem account_eq_of_dicts {j j' : Journal}
    (h1 : j'.full_qname_dict = j.full_qname_dict)
    (h2 : j'.short_qname_dict = j.short_qname_dict) (q : QName) :
    j'.full_qname q = j.full_qname q := by
  rw [Journal.full_qname, Journal.full_qname, Journal.account, Journal.account, h1, h2]

/-- C3: bank-import deduplication is idempotent. If the configured account
resolves (to a full name that resolves to itself), the classifier keeps each
classified posting's date, amount, statement description and account in some
emitted transaction, and a first import run of the candidates succeeds and
commits, then a second run of the same candidates against the updated journal
accepts zero new transactions. -/
theorem import_dedup_idempotent
    {j : Journal} {confQ fq : QName} {candidates : List Posting}
    {classifier : Posting → List Txn} {onlyAfter : Option Int}
    {accepted : List Txn} {j1 : Journal}
    (hfq : j.full_qname confQ = .ok fq)
    (hself : j.full_qname fq = .ok fq)
    (hclass : ∀ p : Posting, ∃ t ∈ classifier p, ∃ q ∈ t.postings,
      q.date = p.date ∧ q.amount = p.amount ∧ q.stmt_desc = p.stmt_desc ∧
        q.acc_qname = p.acc_qname)
    (h1 : import_bank_csv j confQ candidates classifier onlyAfter =
      (.ok accepted, j1)) :
    (import_bank_csv j1 confQ candidates classifier onlyAfter).1 = .ok [] := by
  rw [import_bank_csv, hfq] at h1
  replace h1 : (match j.add_txns
        (classifyAll classifier (bankNewPs j fq candidates onlyAfter)) true with
      | (j', some e) => ((Except.error e : Except String (List Txn)), j')
      | (j', none) =>
        (Except.ok (classifyAll classifier (bankNewPs j fq candidates onlyAfter)),
          j')) =
      (Except.ok accepted, j1) := h1
  rcases hadd : j.add_txns
      (classifyAll classifier (bankNewPs j fq candidates onlyAfter)) true
    with ⟨j', oe⟩
  rw [hadd] at h1
  cases oe with
  | some e => simp at h1
  | none =>
    simp only [Prod.mk.injEq] at h1
    obtain ⟨h1a, h1b⟩ := h1
    subst h1b
    obtain ⟨ts, hvt, hpost, hfqd, hsqd⟩ := add_txns_ok_spec hadd
    have hfq1 : j'.full_qname confQ = .ok fq := by
      rw [account_eq_of_dicts hfqd hsqd confQ]
      exact hfq
    have hbank : bankNewPs j fq candidates onlyAfter =
        filterNew onlyAfter (stampPostings fq j.next_txn_id candidates)
          (buildDedup (j.postings.filter
            (fun p => p.acc_qname == fq || is_descendant_of p.acc_qname fq))) := rfl
    have hnil : bankNewPs j' fq candidates onlyAfter = [] := by
      rw [bankNewPs]
      obtain ⟨hnod₂, hwf₂, hcnt₂⟩ := buildDedup_props (j'.postings.filter
        (fun p => p.acc_qname == fq || is_descendant_of p.acc_qname fq))
      refine filterNew_eq_nil onlyAfter _ _ hnod₂ ?_
      intro k
      obtain ⟨hnod₁, hwf₁, hcnt₁⟩ := buildDedup_props (j.postings.filter
        (fun p => p.acc_qname == fq || is_descendant_of p.acc_qname fq))
      have hrun1 := filterNew_count onlyAfter
        (stampPostings fq j.next_txn_id candidates)
        (buildDedup (j.postings.filter
          (fun p => p.acc_qname == fq || is_descendant_of p.acc_qname fq)))
        hnod₁ hwf₁ k
      rw [← hbank] at hrun1
      have e_f1 : (j.postings.filter
            (fun p => p.acc_qname == fq || is_descendant_of p.acc_qname fq)).countP
            (fun p => p.dedupKeyOf == k) =
          j.postings.countP (fun a => (a.dedupKeyOf == k) &&
            (a.acc_qname == fq || is_descendant_of a.acc_qname fq)) :=
        List.countP_filter _ _ _
      rw [hcnt₁ k, e_f1] at hrun1
      have h_stamp : (stampPostings fq j'.next_txn_id candidates).countP
            (fun p => !skipCond onlyAfter p && (p.dedupKeyOf == k)) =
          (stampPostings fq j.next_txn_id candidates).countP
            (fun p => !skipCond onlyAfter p && (p.dedupKeyOf == k)) :=
        stampPostings_countP fq
          (fun dt am sd =>
            !skipD onlyAfter dt && (((dt, am, sd) : Int × Amount × Option String) == k))
          candidates j'.next_txn_id j.next_txn_id
      have hB : ∀ p ∈ bankNewPs j fq candidates onlyAfter,
          (p.dedupKeyOf == k) = true →
          ∃ q ∈ (classifier p).flatMap (fun t => t.postings),
            ((q.dedupKeyOf == k) && (q.acc_qname == fq)) = true := by
        intro p hp hkey
        obtain ⟨t, ht, q, hq, hd, ha, hs, hacc⟩ := hclass p
        refine ⟨q, List.mem_flatMap.mpr ⟨t, ht, hq⟩, ?_⟩
        rw [hbank] at hp
        have hpacc : p.acc_qname = fq := stampPostings_mem_acc (filterNew_mem hp)
        have hkq : q.dedupKeyOf = p.dedupKeyOf := by
          rw [Posting.dedupKeyOf, Posting.dedupKeyOf, hd, ha, hs]
        rw [hkq, hkey, hacc, hpacc]
        simp
      have himp : ∀ (a b : Posting),
          (b.date = a.date ∧ b.amount = a.amount ∧ b.stmt_desc = a.stmt_desc ∧
            j.full_qname a.acc_qname = .ok b.acc_qname) →
          ((a.dedupKeyOf == k) && (a.acc_qname == fq)) = true →
          ((b.dedupKeyOf == k) &&
            (b.acc_qname == fq || is_descendant_of b.acc_qname fq)) = true := by
        intro a b hrel hpa
        obtain ⟨hd, ha, hs, hfqa⟩ := hrel
        rw [Bool.and_eq_true] at hpa
        obtain ⟨hk, hacc⟩ := hpa
        have haccq : a.acc_qname = fq := beq_iff_eq.mp hacc
        rw [haccq, hself] at hfqa
        have hbacc : b.acc_qname = fq := by
          injection hfqa with h
          exact h.symm
        have hbk : b.dedupKeyOf = a.dedupKeyOf := by
          rw [Posting.dedupKeyOf, Posting.dedupKeyOf, hd, ha, hs]
        rw [hbk, hk, hbacc]
        simp
      have s1 := countP_le_flatMap (fun p : Posting => p.dedupKeyOf == k)
        (fun q : Posting => (q.dedupKeyOf == k) && (q.acc_qname == fq))
        (fun p : Posting => (classifier p).flatMap (fun t => t.postings))
        (bankNewPs j fq candidates onlyAfter) hB
      have s2 : ((bankNewPs j fq candidates onlyAfter).flatMap
            (fun p => (classifier p).flatMap (fun t => t.postings))) =
          ((classifyAll classifier (bankNewPs j fq candidates onlyAfter)).flatMap
            (fun t => t.postings)) := by
        rw [classifyAll_eq]
        exact (List.flatMap_assoc _ _ _).symm
      rw [s2] at s1
      have s3 := flat_countP_le himp (validateTxns_rel hvt)
      have hchain := le_trans s1 s3
      have e_f2 : (j'.postings.filter
            (fun p => p.acc_qname == fq || is_descendant_of p.acc_qname fq)).countP
            (fun p => p.dedupKeyOf == k) =
          j'.postings.countP (fun a => (a.dedupKeyOf == k) &&
            (a.acc_qname == fq || is_descendant_of a.acc_qname fq)) :=
        List.countP_filter _ _ _
      rw [hcnt₂ k, e_f2, hpost, List.countP_append, h_stamp]
      omega
    have h2 : import_bank_csv j' confQ candidates classifier onlyAfter =
        (match j'.add_txns
            (classifyAll classifier (bankNewPs j' fq candidates onlyAfter)) true with
          | (j2, some e) => (.error e, j2)
          | (j2, none) =>
            (.ok (classifyAll classifier (bankNewPs j' fq candidates onlyAfter)), j2)) := by
      rw [import_bank_csv, hfq1]
    have hca : classifyAll classifier ([] : List Posting) = [] := rfl
    rw [hnil, hca] at h2
    rcases hres : j'.add_txns ([] : List Txn) true with ⟨j2, oe2⟩
    have hoe : oe2 = none := by
      have hn : (j'.add_txns ([] : List Txn) true).2 = none := rfl
      rw [hres] at hn
      exact hn
    subst hoe
    rw [hres] at h2
    rw [h2]

/-- Concrete idempotence run: importing the single candidate a second time
against the committed journal accepts nothing. -/
theorem import_dedup_idempotent_witness :
    (import_bank_csv
        (import_bank_csv c3J ["Bank"] [c3Cand] c3Classifier none).2
        ["Bank"] [c3Cand] c3Classifier none).1 = .ok [] := by
  refine @import_dedup_idempotent c3J ["Bank"] ["Bank"] [c3Cand] c3Classifier none
    _ _ (by rfl) (by rfl) ?_ (by rfl)
  intro p
  exact ⟨⟨[p, { p with acc_qname := ["Expense"], amount := -p.amount }]⟩,
    List.mem_cons_self _ _, p, List.mem_cons_self _ _, rfl, rfl, rfl, rfl⟩

end Bsb
